import Mathlib

/-!
Verification development for the jumpseller CLI core: the store-reference
parser, the credential store (auth.js) and the theme watcher (watcher.js).
Strings are modelled as lists of characters; file contents and the
credential file are explicit values threaded through pure state records.
-/

/-- Strings of the JS source are modelled as lists of characters. -/
abbrev Chars := List Char

/-- Character class of the regex character set with lowercase letters,
digits, underscore and hyphen used by parseStoreReference. -/
def isLabelChar (c : Char) : Bool :=
  decide (('a' ≤ c ∧ c ≤ 'z') ∨ ('0' ≤ c ∧ c ≤ '9') ∨ c = '_' ∨ c = '-')

/-- Character class of the lowercase hex digits used by validCredentials. -/
def isHexChar (c : Char) : Bool :=
  decide (('0' ≤ c ∧ c ≤ '9') ∨ ('a' ≤ c ∧ c ≤ 'f'))

/-- Characters that can occur in a canonical store domain: label characters
and the dot. -/
def goodDomainChar (c : Char) : Bool := isLabelChar c || decide (c = '.')

/-- JS String.prototype.trimStart. -/
def strTrimLeft (s : Chars) : Chars := s.dropWhile (fun c => c.isWhitespace)

/-- JS String.prototype.trimEnd. -/
def strTrimRight (s : Chars) : Chars :=
  (s.reverse.dropWhile (fun c => c.isWhitespace)).reverse

/-- JS String.prototype.trim. -/
def strTrim (s : Chars) : Chars := strTrimRight (strTrimLeft s)

/-- Helper for splitNl: first line of the text and the remaining lines. -/
def splitNlAux : Chars → Chars × List Chars
  | [] => ([], [])
  | c :: t =>
    if c = '\n' then ([], (splitNlAux t).1 :: (splitNlAux t).2)
    else (c :: (splitNlAux t).1, (splitNlAux t).2)

/-- JS text.split with separator newline: always returns at least one piece. -/
def splitNl (s : Chars) : List Chars := (splitNlAux s).1 :: (splitNlAux s).2

/-- JS lines.join with separator newline. -/
def joinNl : List Chars → Chars
  | [] => []
  | [l] => l
  | l :: ls => l ++ '\n' :: joinNl ls

/-- splitLines of auth.js: empty text gives no lines, otherwise split on newline. -/
def splitLines (text : Chars) : List Chars :=
  if text.isEmpty then [] else splitNl text

/-- joinLines of auth.js: splice away the leading run of empty lines when a
nonempty line exists (JS findIndex returning -1 makes the splice a no-op),
then join with newlines and append a trailing newline when nonempty. -/
def joinLines (lines : List Chars) : Chars :=
  let k := lines.findIdx (fun l => !l.isEmpty)
  let ls := if k = lines.length then lines else lines.drop k
  if ls.isEmpty then [] else joinNl ls ++ ['\n']

/-- canonicalLine of auth.js: cut at the first hash character, then trim. -/
def canonicalLine (line : Chars) : Chars :=
  strTrim (line.takeWhile (fun c => c != '#'))

/-- First component of the JS destructuring of canonicalLine(line) split on
runs of whitespace: the leading run of non-whitespace characters. -/
def firstToken (s : Chars) : Chars := s.takeWhile (fun c => !c.isWhitespace)

/-- Second component of the same destructuring; none models undefined. -/
def secondToken (s : Chars) : Option Chars :=
  let rest := (s.dropWhile (fun c => !c.isWhitespace)).dropWhile (fun c => c.isWhitespace)
  if rest.isEmpty then none else some (rest.takeWhile (fun c => !c.isWhitespace))

/-- The regex for a bare label: one or more label characters. -/
def isLabel (s : Chars) : Bool := !s.isEmpty && s.all isLabelChar

/-- The regex matching a label followed by the literal suffix sfx, anchored at
both ends: the string ends with sfx and what precedes it is a bare label. -/
def matchLabelSuffix (sfx s : Chars) : Bool :=
  sfx.isSuffixOf s && isLabel (s.take (s.length - sfx.length))

/-- The stripping phase of parseStoreReference: one trailing slash, then the
https scheme, then the http scheme, then a scheme-relative double slash. -/
def stripStore (store : Chars) : Chars :=
  let s0 := if List.isSuffixOf ['/'] store then store.dropLast else store
  let s1 := if List.isPrefixOf ("https://".data) s0 then s0.drop 8 else s0
  let s2 := if List.isPrefixOf ("http://".data) s1 then s1.drop 7 else s1
  if List.isPrefixOf ("//".data) s2 then s2.drop 2 else s2

/-- parseStoreReference of auth.js. -/
def parseStoreReference (store : Chars) : Bool × Chars :=
  let s := stripStore store
  if s = "test".data then (true, "test.localhost".data)
  else if matchLabelSuffix (".jumpseller.com".data) s then (true, s)
  else if matchLabelSuffix (".localhost".data) s then (true, s)
  else if isLabel s then (true, s ++ ".jumpseller.com".data)
  else (false, s)

/-- A run of 32 to 50 lowercase hex digits. -/
def validHexRun (s : Chars) : Bool :=
  decide (32 ≤ s.length ∧ s.length ≤ 50) && s.all isHexChar

/-- validCredentials of auth.js: login and token hex runs joined by a colon. -/
def validCredentials (s : Chars) : Bool :=
  match s.dropWhile (fun c => c != ':') with
  | ':' :: r => validHexRun (s.takeWhile (fun c => c != ':')) && validHexRun r
  | _ => false

/-- validCredentials applied to a possibly undefined destructured component. -/
def validCredentialsOpt : Option Chars → Bool
  | none => false
  | some c => validCredentials c

/-- The credential line written by addCredentials: domain, space, credentials. -/
def credLine (d c : Chars) : Chars := d ++ ' ' :: c

/-- JS Map.prototype.get over the insertion-ordered entry list. -/
def lookupDomain : List (Chars × Chars) → Chars → Option Chars
  | [], _ => none
  | (k, v) :: r, d => if k = d then some v else lookupDomain r d

/-- JS Map.prototype.has over the insertion-ordered entry list. -/
def hasDomain : List (Chars × Chars) → Chars → Bool
  | [], _ => false
  | (k, _) :: r, d => if k = d then true else hasDomain r d

/-- One iteration of the listCredentials forEach over a canonical line:
either record a warning (invalid domain, invalid credentials, duplicate
domain) or insert the entry into the map. -/
def credEntryStep (acc : List (Chars × Chars) × List Chars) (cl : Chars) :
    List (Chars × Chars) × List Chars :=
  let domain := firstToken cl
  let pr := parseStoreReference domain
  if pr.1 = false ∨ domain ≠ pr.2 then (acc.1, acc.2 ++ [domain])
  else if validCredentialsOpt (secondToken cl) = false then (acc.1, acc.2 ++ [domain])
  else if hasDomain acc.1 domain = true then (acc.1, acc.2 ++ [domain])
  else (acc.1 ++ [(domain, (secondToken cl).getD [])], acc.2)

/-- listCredentials of auth.js applied to loaded file content: filter the
lines with nonempty canonical form, then process each in order. The first
component is the resulting map, the second the emitted warnings. -/
def listCredentialsOf (content : Chars) : List (Chars × Chars) × List Chars :=
  ((splitLines content).filter (fun l => !(canonicalLine l).isEmpty)).foldl
    (fun acc l => credEntryStep acc (canonicalLine l)) ([], [])

/-- The canonical nonempty lines of a text, the only data listCredentials
looks at. -/
def sigLines (s : Chars) : List Chars :=
  ((splitNl s).map canonicalLine).filter (fun cl => !cl.isEmpty)

/-- Processing a list of canonical lines from a given accumulator. -/
def credFold (acc : List (Chars × Chars) × List Chars) (cls : List Chars) :
    List (Chars × Chars) × List Chars :=
  cls.foldl credEntryStep acc

/-- addCredentials of auth.js on the loaded credentials text: replace every
line whose domain token matches, append a fresh line when none matched. -/
def addCredentialsText (content d c : Chars) : Chars :=
  let lines := splitLines content
  let anyMatch := lines.any (fun l => decide (firstToken (canonicalLine l) = d))
  let lines2 := lines.map (fun l => if firstToken (canonicalLine l) = d then credLine d c else l)
  joinLines (if anyMatch then lines2 else lines2 ++ [credLine d c])

/-- removeCredentials of auth.js on the loaded credentials text. -/
def removeCredentialsText (content d : Chars) : Chars :=
  joinLines ((splitLines content).filter (fun l => !decide (firstToken (canonicalLine l) = d)))

/-- The persistent and cached state of the Auth singleton relevant to the
credentials file: the on-disk content, the lazily loaded text cache, the
dirty flag, and a counter of file writes performed. -/
structure AuthState where
  disk : Chars
  credentialsText : Option Chars
  credentialsTextChanged : Bool
  writeCount : Nat
deriving DecidableEq, Repr

/-- The text value produced by loadCredentialsFile: the cache when set,
otherwise the trimmed disk content (which the JS code then caches). -/
def loadContent (st : AuthState) : Chars :=
  match st.credentialsText with
  | some t => t
  | none => strTrim st.disk

/-- addCredentials as a state transformer: rewrite the text, set the flag. -/
def addCredentialsS (st : AuthState) (d c : Chars) : AuthState :=
  { st with credentialsText := some (addCredentialsText (loadContent st) d c),
            credentialsTextChanged := true }

/-- removeCredentials as a state transformer: filter the text, set the flag. -/
def removeCredentialsS (st : AuthState) (d : Chars) : AuthState :=
  { st with credentialsText := some (removeCredentialsText (loadContent st) d),
            credentialsTextChanged := true }

/-- flush of auth.js: when dirty, write trimStart of the cached text to disk
(the temp-file-and-rename is modelled as one atomic disk assignment) and
count the write; the dirty flag is left exactly as the code leaves it. -/
def flushS (st : AuthState) : AuthState :=
  if st.credentialsTextChanged then
    { st with disk := strTrimLeft (st.credentialsText.getD []),
              writeCount := st.writeCount + 1 }
  else st

/-- listCredentials as a state transformer: load (and cache) the content,
return the parsed map with its warnings. -/
def listCredentialsS (st : AuthState) :
    (List (Chars × Chars) × List Chars) × AuthState :=
  (listCredentialsOf (loadContent st), { st with credentialsText := some (loadContent st) })

/-- A process restart: the same disk, no caches, clean flags. -/
def freshProcess (disk : Chars) : AuthState :=
  { disk := disk, credentialsText := none, credentialsTextChanged := false, writeCount := 0 }

/-- JS truthiness of the store-valued fields: undefined, false and the empty
string are falsy; none models both undefined and false. -/
def truthyS : Option Chars → Bool
  | none => false
  | some s => !s.isEmpty

/-- JS a or-or b on store-valued expressions. -/
def jsOr (a b : Option Chars) : Option Chars := if truthyS a then a else b

/-- loadGlobalDefault of auth.js: trimmed file content, empty coerced to
false; none models a missing file. -/
def loadGlobalDefault (globalFile : Option Chars) : Option Chars :=
  match globalFile with
  | none => none
  | some t => if (strTrim t).isEmpty then none else some (strTrim t)

/-- The fixed per-directory local default filename. -/
def localCurrentFile : String := ".jumpseller-store"

/-- The findScopeFolder loop with explicit fuel; directories are component
lists with the filesystem root as the empty list, a filesystem maps paths to
optional file contents, and the loop condition mirrors the JS condition of
home leading the current directory or the current directory not being the
root. Fuel only bounds the structural recursion and is chosen large enough
to never run out. -/
def scopeWalkAux (fsF : List String → Option Chars) (home : List String) :
    Nat → List String → Option (List String × Chars)
  | 0, _ => none
  | fuel + 1, fingerDir =>
    if home.isPrefixOf fingerDir || !fingerDir.isEmpty then
      match fsF (fingerDir ++ [localCurrentFile]) with
      | some content => some (fingerDir, content)
      | none =>
        if fingerDir.isEmpty then none
        else scopeWalkAux fsF home fuel fingerDir.dropLast
    else none

/-- findScopeFolder of auth.js: walk from the working directory towards the
root; on success the directory holding the file and its raw content. -/
def scopeWalk (fsF : List String → Option Chars) (home cwd : List String) :
    Option (List String × Chars) :=
  scopeWalkAux fsF home (cwd.length + 1) cwd

/-- getLocalDefault of auth.js: the raw content found by the walk, or false. -/
def getLocalDefaultM (fsF : List String → Option Chars) (cwd home : List String) :
    Option Chars :=
  (scopeWalk fsF home cwd).map (fun pr => pr.2)

/-- currentStore of auth.js: command-line store, else local default, else
global default, combined with JS or-or. -/
def currentStoreM (cmd : Option Chars) (fsF : List String → Option Chars)
    (cwd home : List String) (globalFile : Option Chars) : Option Chars :=
  jsOr cmd (jsOr (getLocalDefaultM fsF cwd home) (loadGlobalDefault globalFile))

/-- isKnownPath of watcher.js. The micromatch collaborator is abstracted as
the matcher m taking the path and a pattern list. -/
def isKnownPath (m : Chars → List Chars → Bool) (allowlist blocklist : List Chars)
    (p : Chars) : Bool :=
  if m p allowlist then true
  else if m p blocklist then false
  else if List.isPrefixOf ("partials/".data) p then true
  else if List.isPrefixOf ("components/".data) p then true
  else if List.isPrefixOf ("templates/".data) p then true
  else if List.isPrefixOf ("assets/library/".data) p then false
  else if List.isPrefixOf ("assets/".data) p then true
  else if List.isPrefixOf ("config/".data) p then true
  else false

/-- A remote request issued by the watcher: a schema write or a schema
delete for a theme path. -/
inductive ThemeRequest where
  | write (path : Chars) (content : Chars)
  | remove (path : Chars)
deriving DecidableEq, Repr

/-- The watcher state observable per event: whether the stop hook has been
resolved (the session is headed for draining) and the in-flight requests. -/
structure WatchState where
  stopRequested : Bool
  requests : List ThemeRequest
deriving DecidableEq, Repr

/-- The per-event handler of ThemeWatcher.watch: classify the path, run the
git check (its result for this event is the gitCheck argument, resolving the
stop hook when positive), then issue the write or delete according to the
action. readFile models fs.readFileSync at event time. -/
def handleEvent (m : Chars → List Chars → Bool) (allowlist blocklist : List Chars)
    (readFile : Chars → Chars) (gitCheck : Bool) (st : WatchState)
    (eventKind : Chars) (relativePath : Chars) : WatchState :=
  let action := if isKnownPath m allowlist blocklist relativePath then eventKind
                else "SKIP".data
  let st1 := if gitCheck then { st with stopRequested := true } else st
  if action = "change".data ∨ action = "add".data then
    { st1 with requests := st1.requests ++ [ThemeRequest.write relativePath (readFile relativePath)] }
  else if action = "unlink".data then
    { st1 with requests := st1.requests ++ [ThemeRequest.remove relativePath] }
  else st1

/-- Following the spec wording for one line of the credential store: the
domain token passes the StoreReference check (parses and is already
canonical) and the second token passes the credential-format check. -/
def specLineOk (cl : Chars) : Bool :=
  let pr := parseStoreReference (firstToken cl)
  (pr.1 && decide (firstToken cl = pr.2)) && validCredentialsOpt (secondToken cl)

/-- Following the spec wording for the whole file: keep the validated
entries in order, discarding lines whose domain duplicates an earlier one. -/
def specCredEntries : List Chars → List Chars → List (Chars × Chars)
  | [], _ => []
  | cl :: rest, seen =>
    if specLineOk cl ∧ firstToken cl ∉ seen then
      (firstToken cl, (secondToken cl).getD []) :: specCredEntries rest (firstToken cl :: seen)
    else specCredEntries rest seen

/-! ## Character class facts -/

theorem ws_char_cases {c : Char} (h : c.isWhitespace = true) :
    c = ' ' ∨ c = '\t' ∨ c = '\r' ∨ c = '\n' := by
  simpa [Char.isWhitespace, or_assoc] using h

theorem isLabelChar_not_ws {c : Char} (h : isLabelChar c = true) :
    c.isWhitespace = false := by
  by_contra hw
  rw [Bool.not_eq_false] at hw
  rcases ws_char_cases hw with rfl | rfl | rfl | rfl <;> exact absurd h (by decide)

theorem isLabelChar_ne_hash {c : Char} (h : isLabelChar c = true) : c ≠ '#' := by
  rintro rfl; exact absurd h (by decide)

theorem isLabelChar_ne_slash {c : Char} (h : isLabelChar c = true) : c ≠ '/' := by
  rintro rfl; exact absurd h (by decide)

theorem goodDomainChar_not_ws {c : Char} (h : goodDomainChar c = true) :
    c.isWhitespace = false := by
  rcases Bool.or_eq_true_iff.mp h with h1 | h1
  · exact isLabelChar_not_ws h1
  · rw [of_decide_eq_true h1]; decide

theorem goodDomainChar_ne_hash {c : Char} (h : goodDomainChar c = true) : c ≠ '#' := by
  rcases Bool.or_eq_true_iff.mp h with h1 | h1
  · exact isLabelChar_ne_hash h1
  · rw [of_decide_eq_true h1]; decide

theorem goodDomainChar_ne_slash {c : Char} (h : goodDomainChar c = true) : c ≠ '/' := by
  rcases Bool.or_eq_true_iff.mp h with h1 | h1
  · exact isLabelChar_ne_slash h1
  · rw [of_decide_eq_true h1]; decide

theorem isHexChar_not_ws {c : Char} (h : isHexChar c = true) :
    c.isWhitespace = false := by
  by_contra hw
  rw [Bool.not_eq_false] at hw
  rcases ws_char_cases hw with rfl | rfl | rfl | rfl <;> exact absurd h (by decide)

theorem isHexChar_ne_hash {c : Char} (h : isHexChar c = true) : c ≠ '#' := by
  rintro rfl; exact absurd h (by decide)

/-! ## Small takeWhile and dropWhile helpers -/

theorem takeWhile_all {p : Char → Bool} {l : Chars} (h : ∀ a ∈ l, p a = true) :
    l.takeWhile p = l := by
  induction l with
  | nil => rfl
  | cons a t ih =>
    rw [List.takeWhile_cons, if_pos (h a (by simp))]
    rw [ih (fun x hx => h x (by simp [hx]))]

theorem dropWhile_all {p : Char → Bool} {l : Chars} (h : ∀ a ∈ l, p a = true) :
    l.dropWhile p = [] := by
  induction l with
  | nil => rfl
  | cons a t ih =>
    rw [List.dropWhile_cons, if_pos (h a (by simp))]
    exact ih (fun x hx => h x (by simp [hx]))

/-! ## Facts about validCredentials and parse fixed points -/

theorem validCredentials_chars {c : Chars} (h : validCredentials c = true) :
    c ≠ [] ∧ ∀ ch ∈ c, isHexChar ch = true ∨ ch = ':' := by
  unfold validCredentials at h
  split at h
  next r heq =>
    obtain ⟨h1, h2⟩ := Bool.and_eq_true_iff.mp h
    have hdec : c = c.takeWhile (fun x => x != ':') ++ ':' :: r := by
      conv_lhs => rw [← List.takeWhile_append_dropWhile (fun x => x != ':') c]
      rw [heq]
    constructor
    · intro hc; rw [hc] at hdec; exact absurd hdec.symm (by simp)
    · intro x hx
      rw [hdec] at hx
      rcases List.mem_append.mp hx with hx1 | hx1
      · left
        have := Bool.and_eq_true_iff.mp h1
        exact List.all_eq_true.mp this.2 x hx1
      · rcases List.mem_cons.mp hx1 with rfl | hx2
        · right; rfl
        · left
          have := Bool.and_eq_true_iff.mp h2
          exact List.all_eq_true.mp this.2 x hx2
  next => simp at h

theorem hexColonChar_not_ws {ch : Char} (h : isHexChar ch = true ∨ ch = ':') :
    ch.isWhitespace = false := by
  rcases h with h | rfl
  · exact isHexChar_not_ws h
  · decide

theorem hexColonChar_ne_hash {ch : Char} (h : isHexChar ch = true ∨ ch = ':') :
    ch ≠ '#' := by
  rcases h with h | rfl
  · exact isHexChar_ne_hash h
  · decide

theorem matchLabelSuffix_elim {sfx s : Chars} (h : matchLabelSuffix sfx s = true) :
    ∃ pre, s = pre ++ sfx ∧ isLabel pre = true := by
  unfold matchLabelSuffix at h
  obtain ⟨h1, h2⟩ := Bool.and_eq_true_iff.mp h
  obtain ⟨pre, hpre⟩ := List.isSuffixOf_iff_suffix.mp h1
  refine ⟨pre, hpre.symm, ?_⟩
  have hlen : s.length - sfx.length = pre.length := by
    rw [← hpre, List.length_append]; omega
  rw [hlen, ← hpre, List.take_left] at h2
  exact h2

theorem matchLabelSuffix_intro {sfx pre : Chars} (h : isLabel pre = true) :
    matchLabelSuffix sfx (pre ++ sfx) = true := by
  unfold matchLabelSuffix
  refine Bool.and_eq_true_iff.mpr ⟨?_, ?_⟩
  · exact List.isSuffixOf_iff_suffix.mpr ⟨pre, rfl⟩
  · have hlen : (pre ++ sfx).length - sfx.length = pre.length := by
      rw [List.length_append]; omega
    rw [hlen, List.take_left]
    exact h

theorem isLabel_chars {s : Chars} (h : isLabel s = true) :
    s ≠ [] ∧ ∀ ch ∈ s, isLabelChar ch = true := by
  obtain ⟨h1, h2⟩ := Bool.and_eq_true_iff.mp h
  exact ⟨by simpa using h1, List.all_eq_true.mp h2⟩

theorem parse_fixpoint_chars {d : Chars} (h : parseStoreReference d = (true, d)) :
    d ≠ [] ∧ ∀ ch ∈ d, goodDomainChar ch = true := by
  simp only [parseStoreReference] at h
  split at h
  · rw [Prod.mk.injEq] at h
    rw [← h.2]
    exact ⟨by decide, by decide⟩
  · split at h
    · rw [Prod.mk.injEq] at h
      obtain ⟨pre, hpre, hlab⟩ := matchLabelSuffix_elim (by assumption)
      obtain ⟨hne, hch⟩ := isLabel_chars hlab
      rw [← h.2, hpre]
      constructor
      · simp [hne]
      · intro ch hchm
        rcases List.mem_append.mp hchm with h1 | h1
        · exact Bool.or_eq_true_iff.mpr (Or.inl (hch ch h1))
        · have hsfx : ∀ x ∈ (".jumpseller.com".data), goodDomainChar x = true := by decide
          exact hsfx ch h1
    · split at h
      · rw [Prod.mk.injEq] at h
        obtain ⟨pre, hpre, hlab⟩ := matchLabelSuffix_elim (by assumption)
        obtain ⟨hne, hch⟩ := isLabel_chars hlab
        rw [← h.2, hpre]
        constructor
        · simp [hne]
        · intro ch hchm
          rcases List.mem_append.mp hchm with h1 | h1
          · exact Bool.or_eq_true_iff.mpr (Or.inl (hch ch h1))
          · have hsfx : ∀ x ∈ (".localhost".data), goodDomainChar x = true := by decide
            exact hsfx ch h1
      · split at h
        · rw [Prod.mk.injEq] at h
          obtain ⟨hne, hch⟩ := isLabel_chars (by assumption)
          rw [← h.2]
          constructor
          · simp
          · intro ch hchm
            rcases List.mem_append.mp hchm with h1 | h1
            · exact Bool.or_eq_true_iff.mpr (Or.inl (hch ch h1))
            · have hsfx : ∀ x ∈ (".jumpseller.com".data), goodDomainChar x = true := by decide
              exact hsfx ch h1
        · exact absurd (congrArg Prod.fst h) (by simp)

/-! ## Stripping facts -/

theorem stripStore_eq_self {s : Chars} (h : '/' ∉ s) : stripStore s = s := by
  have h1 : ¬ (List.isSuffixOf ['/'] s = true) := by
    intro hx
    exact h (List.IsSuffix.subset (List.isSuffixOf_iff_suffix.mp hx) (by simp))
  have h2 : ¬ (List.isPrefixOf ("https://".data) s = true) := by
    intro hx
    have hp := List.isPrefixOf_iff_prefix.mp hx
    exact h (List.IsPrefix.subset hp (by decide))
  have h3 : ¬ (List.isPrefixOf ("http://".data) s = true) := by
    intro hx
    have hp := List.isPrefixOf_iff_prefix.mp hx
    exact h (List.IsPrefix.subset hp (by decide))
  have h4 : ¬ (List.isPrefixOf ("//".data) s = true) := by
    intro hx
    have hp := List.isPrefixOf_iff_prefix.mp hx
    exact h (List.IsPrefix.subset hp (by decide))
  unfold stripStore
  simp only [if_neg h1, if_neg h2, if_neg h3, if_neg h4]

theorem stripStore_of_good {s : Chars} (h : ∀ ch ∈ s, goodDomainChar ch = true) :
    stripStore s = s := by
  refine stripStore_eq_self (fun hx => ?_)
  exact absurd rfl (goodDomainChar_ne_slash (h '/' hx))

theorem stripStore_of_label {s : Chars} (h : isLabel s = true) :
    stripStore s = s := by
  obtain ⟨_, hch⟩ := isLabel_chars h
  exact stripStore_of_good (fun ch hm => Bool.or_eq_true_iff.mpr (Or.inl (hch ch hm)))

/-! ## Regex mismatch facts for parse -/

theorem matchLabelSuffix_label_false (sfx : Chars) {L : Chars} (hd : '.' ∈ sfx)
    (hl : isLabel L = true) : matchLabelSuffix sfx L = false := by
  by_contra hx
  rw [Bool.not_eq_false] at hx
  obtain ⟨pre, hpre, _⟩ := matchLabelSuffix_elim hx
  obtain ⟨_, hch⟩ := isLabel_chars hl
  have : '.' ∈ L := by rw [hpre]; exact List.mem_append.mpr (Or.inr hd)
  exact absurd (hch '.' this) (by decide)

theorem ne_of_length_ne {a b : Chars} (h : a.length ≠ b.length) : a ≠ b :=
  fun hx => h (congrArg List.length hx)

/-- The identity behavior of parseStoreReference on canonical domains. -/
theorem parse_identity_suffix {L sfx : Chars} (hl : isLabel L = true)
    (hsfx : sfx = (".jumpseller.com".data) ∨ sfx = (".localhost".data)) :
    parseStoreReference (L ++ sfx) = (true, L ++ sfx) := by
  have hgood : ∀ ch ∈ L ++ sfx, goodDomainChar ch = true := by
    intro ch hm
    rcases List.mem_append.mp hm with h1 | h1
    · exact Bool.or_eq_true_iff.mpr (Or.inl ((isLabel_chars hl).2 ch h1))
    · rcases hsfx with rfl | rfl
      · have hx : ∀ x ∈ (".jumpseller.com".data), goodDomainChar x = true := by decide
        exact hx ch h1
      · have hx : ∀ x ∈ (".localhost".data), goodDomainChar x = true := by decide
        exact hx ch h1
  have hstrip : stripStore (L ++ sfx) = L ++ sfx := stripStore_of_good hgood
  have hL1 : 0 < L.length := List.length_pos.mpr (isLabel_chars hl).1
  have hnetest : L ++ sfx ≠ "test".data := by
    refine ne_of_length_ne ?_
    rcases hsfx with rfl | rfl <;> simp [List.length_append]
  simp only [parseStoreReference, hstrip]
  rcases hsfx with rfl | rfl
  · rw [if_neg hnetest, if_pos (matchLabelSuffix_intro hl)]
  · have hnomatch : matchLabelSuffix (".jumpseller.com".data) (L ++ ".localhost".data) = false := by
      by_contra hx
      rw [Bool.not_eq_false] at hx
      obtain ⟨pre, hpre, _⟩ := matchLabelSuffix_elim hx
      have hlast : (L ++ ".localhost".data).getLast? = (pre ++ ".jumpseller.com".data).getLast? := by
        rw [hpre]
      rw [List.getLast?_append, List.getLast?_append] at hlast
      simp at hlast
    rw [if_neg hnetest, if_neg (by simp [hnomatch]), if_pos (matchLabelSuffix_intro hl)]

/-- The bare-label behavior of parseStoreReference away from test. -/
theorem parse_bare_label {L : Chars} (hl : isLabel L = true) (hne : L ≠ "test".data) :
    parseStoreReference L = (true, L ++ ".jumpseller.com".data) := by
  have hstrip := stripStore_of_label hl
  have hm1 := matchLabelSuffix_label_false (".jumpseller.com".data) (by decide) hl
  have hm2 := matchLabelSuffix_label_false (".localhost".data) (by decide) hl
  simp only [parseStoreReference, hstrip]
  rw [if_neg hne, if_neg (by simp [hm1]), if_neg (by simp [hm2]), if_pos hl]

/-- Rejection behavior of parseStoreReference when every test fails. -/
theorem parse_reject {s : Chars}
    (h1 : stripStore s ≠ "test".data)
    (h2 : matchLabelSuffix (".jumpseller.com".data) (stripStore s) = false)
    (h3 : matchLabelSuffix (".localhost".data) (stripStore s) = false)
    (h4 : isLabel (stripStore s) = false) :
    parseStoreReference s = (false, stripStore s) := by
  simp only [parseStoreReference]
  rw [if_neg h1, if_neg (by simp [h2]), if_neg (by simp [h3]), if_neg (by simp [h4])]

theorem matchLabelSuffix_good_chars {sfx s : Chars}
    (h : matchLabelSuffix sfx s = true)
    (hsfx : ∀ x ∈ sfx, goodDomainChar x = true) :
    ∀ ch ∈ s, goodDomainChar ch = true := by
  obtain ⟨pre, hpre, hlab⟩ := matchLabelSuffix_elim h
  intro ch hm
  rw [hpre] at hm
  rcases List.mem_append.mp hm with h1 | h1
  · exact Bool.or_eq_true_iff.mpr (Or.inl ((isLabel_chars hlab).2 ch h1))
  · exact hsfx ch h1

/-- A single character outside the domain alphabet forces rejection. -/
theorem parse_reject_badchar {s : Chars} {ch : Char} (hm : ch ∈ stripStore s)
    (hbad : goodDomainChar ch = false) :
    parseStoreReference s = (false, stripStore s) := by
  have hjs : ∀ x ∈ (".jumpseller.com".data), goodDomainChar x = true := by decide
  have hlh : ∀ x ∈ (".localhost".data), goodDomainChar x = true := by decide
  have htest : ∀ x ∈ ("test".data), goodDomainChar x = true := by decide
  apply parse_reject
  · intro hx
    rw [hx] at hm
    exact absurd (htest ch hm) (by simp [hbad])
  · by_contra hx
    rw [Bool.not_eq_false] at hx
    exact absurd (matchLabelSuffix_good_chars hx hjs ch hm) (by simp [hbad])
  · by_contra hx
    rw [Bool.not_eq_false] at hx
    exact absurd (matchLabelSuffix_good_chars hx hlh ch hm) (by simp [hbad])
  · by_contra hx
    rw [Bool.not_eq_false] at hx
    have hlc := (isLabel_chars hx).2 ch hm
    have : goodDomainChar ch = true := Bool.or_eq_true_iff.mpr (Or.inl hlc)
    rw [this] at hbad
    exact absurd hbad (by simp)

/-- C3, counterexample to the claim as stated: the word test is itself a
valid bare label yet does not map to test.jumpseller.com, and an input whose
label has uppercase letters is returned stripped, not as the original
input. -/
theorem c3_counterexample :
    isLabel ("test".data) = true ∧
    parseStoreReference ("test".data) ≠ (true, "test".data ++ ".jumpseller.com".data) ∧
    parseStoreReference ("https://FOO/".data) = (false, "FOO".data) ∧
    ("FOO".data : Chars) ≠ "https://FOO/".data := by
  exact ⟨by decide, by decide, by decide, by decide⟩

/-- C3, amended: parse strips one trailing slash then the https, http and
double-slash markers; every valid bare label other than test maps to the
label with the production suffix appended; inputs already of the two
canonical domain shapes are returned unchanged; test maps to the local test
domain; and any input whose stripped form has a character that is neither a
label character nor a dot is rejected with the stripped input returned. -/
theorem c3_amended :
    (∀ L : Chars, isLabel L = true → L ≠ "test".data →
        parseStoreReference L = (true, L ++ ".jumpseller.com".data)) ∧
    (∀ L : Chars, isLabel L = true →
        parseStoreReference (L ++ ".jumpseller.com".data) = (true, L ++ ".jumpseller.com".data)) ∧
    (∀ L : Chars, isLabel L = true →
        parseStoreReference (L ++ ".localhost".data) = (true, L ++ ".localhost".data)) ∧
    parseStoreReference ("test".data) = (true, "test.localhost".data) ∧
    (∀ s : Chars, ∀ ch ∈ stripStore s, isLabelChar ch = false → ch ≠ '.' →
        parseStoreReference s = (false, stripStore s)) := by
  refine ⟨?_, ?_, ?_, by decide, ?_⟩
  · exact fun L hl hne => parse_bare_label hl hne
  · exact fun L hl => parse_identity_suffix hl (Or.inl rfl)
  · exact fun L hl => parse_identity_suffix hl (Or.inr rfl)
  · intro s ch hm h1 h2
    exact parse_reject_badchar hm (by simp [goodDomainChar, h1, h2])

/-- C3, witness: the amended theorem evaluated at concrete inputs. -/
theorem c3_witness :
    parseStoreReference ("foo".data) = (true, "foo".data ++ ".jumpseller.com".data) ∧
    parseStoreReference ("simple".data ++ ".jumpseller.com".data) =
      (true, "simple".data ++ ".jumpseller.com".data) ∧
    parseStoreReference ("simple".data ++ ".localhost".data) =
      (true, "simple".data ++ ".localhost".data) ∧
    parseStoreReference ("Foo".data) = (false, stripStore ("Foo".data)) := by
  refine ⟨?_, ?_, ?_, ?_⟩
  · exact c3_amended.1 ("foo".data) (by decide) (by decide)
  · exact c3_amended.2.1 ("simple".data) (by decide)
  · exact c3_amended.2.2.1 ("simple".data) (by decide)
  · exact c3_amended.2.2.2.2 ("Foo".data) 'F' (by decide) (by decide) (by decide)

/-- C4: isKnownPath evaluates its rules in order with the first match
winning: allow-glob, block-glob, the structural directories, the excluded
library subtree, general assets, config, and a default deny; in particular
an allow match wins even when the block list also matches. -/
theorem c4_path_policy (m : Chars → List Chars → Bool) (allow block : List Chars)
    (p : Chars) :
    (m p allow = true → isKnownPath m allow block p = true) ∧
    (m p allow = false → m p block = true → isKnownPath m allow block p = false) ∧
    (m p allow = false → m p block = false →
      (List.isPrefixOf ("partials/".data) p = true ∨
       List.isPrefixOf ("components/".data) p = true ∨
       List.isPrefixOf ("templates/".data) p = true) →
      isKnownPath m allow block p = true) ∧
    (m p allow = false → m p block = false →
      List.isPrefixOf ("partials/".data) p = false →
      List.isPrefixOf ("components/".data) p = false →
      List.isPrefixOf ("templates/".data) p = false →
      List.isPrefixOf ("assets/library/".data) p = true →
      isKnownPath m allow block p = false) ∧
    (m p allow = false → m p block = false →
      List.isPrefixOf ("partials/".data) p = false →
      List.isPrefixOf ("components/".data) p = false →
      List.isPrefixOf ("templates/".data) p = false →
      List.isPrefixOf ("assets/library/".data) p = false →
      List.isPrefixOf ("assets/".data) p = true →
      isKnownPath m allow block p = true) ∧
    (m p allow = false → m p block = false →
      List.isPrefixOf ("partials/".data) p = false →
      List.isPrefixOf ("components/".data) p = false →
      List.isPrefixOf ("templates/".data) p = false →
      List.isPrefixOf ("assets/library/".data) p = false →
      List.isPrefixOf ("assets/".data) p = false →
      List.isPrefixOf ("config/".data) p = true →
      isKnownPath m allow block p = true) ∧
    (m p allow = false → m p block = false →
      List.isPrefixOf ("partials/".data) p = false →
      List.isPrefixOf ("components/".data) p = false →
      List.isPrefixOf ("templates/".data) p = false →
      List.isPrefixOf ("assets/library/".data) p = false →
      List.isPrefixOf ("assets/".data) p = false →
      List.isPrefixOf ("config/".data) p = false →
      isKnownPath m allow block p = false) := by
  refine ⟨?_, ?_, ?_, ?_, ?_, ?_, ?_⟩
  · intro h1; simp [isKnownPath, h1]
  · intro h1 h2; simp [isKnownPath, h1, h2]
  · intro h1 h2 h3
    rcases h3 with h3 | h3 | h3
    · obtain ⟨t, rfl⟩ := List.isPrefixOf_iff_prefix.mp h3
      simp_all [isKnownPath, List.isPrefixOf]
    · obtain ⟨t, rfl⟩ := List.isPrefixOf_iff_prefix.mp h3
      simp_all [isKnownPath, List.isPrefixOf]
    · obtain ⟨t, rfl⟩ := List.isPrefixOf_iff_prefix.mp h3
      simp_all [isKnownPath, List.isPrefixOf]
  · intro h1 h2 h3 h4 h5 h6; simp [isKnownPath, h1, h2, h3, h4, h5, h6]
  · intro h1 h2 h3 h4 h5 h6 h7; simp [isKnownPath, h1, h2, h3, h4, h5, h6, h7]
  · intro h1 h2 h3 h4 h5 h6 h7 h8; simp [isKnownPath, h1, h2, h3, h4, h5, h6, h7, h8]
  · intro h1 h2 h3 h4 h5 h6 h7 h8; simp [isKnownPath, h1, h2, h3, h4, h5, h6, h7, h8]

/-- C4, witness: the policy evaluated on the spec examples through the
theorem, with an exact-match matcher standing in for micromatch. -/
theorem c4_witness :
    isKnownPath (fun q pats => pats.any (fun pat => pat == q)) [] []
      ("templates/header.json".data) = true ∧
    isKnownPath (fun q pats => pats.any (fun pat => pat == q)) [] []
      ("assets/library/vendor.js".data) = false ∧
    isKnownPath (fun q pats => pats.any (fun pat => pat == q)) []
      ["components/foo.json".data] ("components/foo.json".data) = false ∧
    isKnownPath (fun q pats => pats.any (fun pat => pat == q))
      ["components/foo.json".data] ["components/foo.json".data]
      ("components/foo.json".data) = true ∧
    isKnownPath (fun q pats => pats.any (fun pat => pat == q)) [] []
      ("README.md".data) = false := by
  refine ⟨?_, ?_, ?_, ?_, ?_⟩
  · exact (c4_path_policy _ _ _ _).2.2.1 (by decide) (by decide) (by decide)
  · exact (c4_path_policy _ _ _ _).2.2.2.1 (by decide) (by decide) (by decide)
      (by decide) (by decide) (by decide)
  · exact (c4_path_policy _ _ _ _).2.1 (by decide) (by decide)
  · exact (c4_path_policy _ _ _ _).1 (by decide)
  · exact (c4_path_policy _ _ _ _).2.2.2.2.2.2 (by decide) (by decide) (by decide)
      (by decide) (by decide) (by decide) (by decide) (by decide)

/-- C1, counterexample to the claim as stated: a change event on a syncable
path with a positive git check still issues a write request for that very
event, so a positive check does not prevent the remote call. -/
theorem c1_counterexample :
    (handleEvent (fun _ _ => false) [] [] (fun _ => "x".data) true
        { stopRequested := false, requests := [] }
        ("change".data) ("templates/a.json".data)).requests =
      [ThemeRequest.write ("templates/a.json".data) ("x".data)] ∧
    (handleEvent (fun _ _ => false) [] [] (fun _ => "x".data) true
        { stopRequested := false, requests := [] }
        ("change".data) ("templates/a.json".data)).stopRequested = true := by
  exact ⟨by decide, by decide⟩

/-- C1, amended: the git check does run before the write decision and a
positive result immediately requests the stop that leads to draining, but it
does not suppress the request for the event being handled: the requests
issued are exactly those of the same event with a negative check. -/
theorem c1_amended (m : Chars → List Chars → Bool) (allow block : List Chars)
    (readFile : Chars → Chars) (st : WatchState) (kind path : Chars) :
    (handleEvent m allow block readFile true st kind path).stopRequested = true ∧
    (handleEvent m allow block readFile true st kind path).requests =
      (handleEvent m allow block readFile false st kind path).requests := by
  by_cases h1 : (if isKnownPath m allow block path then kind else "SKIP".data) = "change".data ∨
      (if isKnownPath m allow block path then kind else "SKIP".data) = "add".data
  · constructor <;> simp [handleEvent, h1]
  · by_cases h2 : (if isKnownPath m allow block path then kind else "SKIP".data) = "unlink".data
    · constructor <;> simp [handleEvent, h1, h2]
    · constructor <;> simp [handleEvent, h1, h2]

/-! ## Scope walk facts -/

theorem scopeWalk_hit {fsF : List String → Option Chars} {home cwd : List String}
    {t : Chars} (hc : (home.isPrefixOf cwd || !List.isEmpty cwd) = true)
    (hf : fsF (cwd ++ [localCurrentFile]) = some t) :
    scopeWalk fsF home cwd = some (cwd, t) := by
  simp [scopeWalk, scopeWalkAux, hc, hf]

theorem scopeWalk_miss {fsF : List String → Option Chars} {home cwd : List String}
    (hne : cwd ≠ []) (hf : fsF (cwd ++ [localCurrentFile]) = none) :
    scopeWalk fsF home cwd = scopeWalk fsF home cwd.dropLast := by
  have hlen : cwd.dropLast.length + 1 = cwd.length := by
    have h1 := List.length_dropLast cwd
    have h2 : 0 < cwd.length := List.length_pos.mpr hne
    omega
  have hemp : cwd.isEmpty = false := by simpa [List.isEmpty_iff] using hne
  conv_rhs => rw [scopeWalk, hlen]
  rw [scopeWalk]
  simp [scopeWalkAux, hf, hemp]

theorem scopeWalk_root_none {fsF : List String → Option Chars} {home : List String}
    (h : home ≠ []) : scopeWalk fsF home [] = none := by
  simp [scopeWalk, scopeWalkAux, List.isPrefixOf_iff_prefix, List.prefix_nil, h]

theorem scopeWalk_root_home {fsF : List String → Option Chars} :
    scopeWalk fsF [] [] = (fsF [localCurrentFile]).map (fun t => (([] : List String), t)) := by
  cases hf : fsF [localCurrentFile] <;> simp [scopeWalk, scopeWalkAux, hf]

theorem scopeWalk_absent {fsF : List String → Option Chars} {home cwd : List String}
    (hh : home ≠ [])
    (h : ∀ p : List String, p <+: cwd → fsF (p ++ [localCurrentFile]) = none) :
    scopeWalk fsF home cwd = none := by
  induction cwd using List.reverseRecOn with
  | nil => exact scopeWalk_root_none hh
  | append_singleton xs x ih =>
    rw [scopeWalk_miss (by simp) (h (xs ++ [x]) List.prefix_rfl)]
    rw [List.dropLast_concat]
    exact ih (fun p hp => h p (hp.trans (by simp)))

/-- C6, counterexample to the claim as stated: the walk does not stop once
above the home directory; with the local default file present only at a
strict ancestor of home, the walk still finds and returns it. -/
theorem c6_counterexample :
    scopeWalk
      (fun q => if q = ["home", ".jumpseller-store"] then some ("above.jumpseller.com".data) else none)
      ["home", "user"] ["home", "user"] =
      some (["home"], "above.jumpseller.com".data) ∧
    (["home", "user"].isPrefixOf ["home"]) = false := by
  exact ⟨by decide, by decide⟩

/-- C6, amended: the walk starts at the working directory, reads the fixed
filename at each level and stops at the first directory where it is present;
on a miss at a non-root directory it always continues to the parent, with no
bound at the home directory; the root itself is only examined when the home
directory is the root, and absence at every level gives none (no local
default) rather than an error. -/
theorem c6_amended :
    (∀ (fsF : List String → Option Chars) (home cwd : List String) (t : Chars),
        (home.isPrefixOf cwd || !List.isEmpty cwd) = true →
        fsF (cwd ++ [localCurrentFile]) = some t →
        scopeWalk fsF home cwd = some (cwd, t)) ∧
    (∀ (fsF : List String → Option Chars) (home cwd : List String),
        cwd ≠ [] → fsF (cwd ++ [localCurrentFile]) = none →
        scopeWalk fsF home cwd = scopeWalk fsF home cwd.dropLast) ∧
    (∀ (fsF : List String → Option Chars) (home : List String),
        home ≠ [] → scopeWalk fsF home [] = none) ∧
    (∀ fsF : List String → Option Chars,
        scopeWalk fsF [] [] = (fsF [localCurrentFile]).map (fun t => (([] : List String), t))) ∧
    (∀ (fsF : List String → Option Chars) (home cwd : List String),
        home ≠ [] →
        (∀ p : List String, p <+: cwd → fsF (p ++ [localCurrentFile]) = none) →
        scopeWalk fsF home cwd = none) :=
  ⟨fun _ _ _ _ hc hf => scopeWalk_hit hc hf,
   fun _ _ _ hne hf => scopeWalk_miss hne hf,
   fun _ _ hh => scopeWalk_root_none hh,
   fun _ => scopeWalk_root_home,
   fun _ _ _ hh h => scopeWalk_absent hh h⟩

/-- C6, witness: the amended walk characterization at concrete inputs. -/
theorem c6_witness :
    scopeWalk
      (fun q => if q = ["home", "user", ".jumpseller-store"] then some ("here.jumpseller.com".data) else none)
      ["home", "user"] ["home", "user"] =
      some (["home", "user"], "here.jumpseller.com".data) ∧
    scopeWalk (fun _ => none) ["home", "user"] ["home", "user", "proj"] = none := by
  constructor
  · exact c6_amended.1 _ ["home", "user"] ["home", "user"] _ (by decide) (by decide)
  · exact c6_amended.2.2.2.2 _ ["home", "user"] ["home", "user", "proj"]
      (by decide) (fun p _ => rfl)

/-! ## currentStore precedence -/

theorem loadGlobalDefault_some_ne {g : Option Chars} {gv : Chars}
    (h : loadGlobalDefault g = some gv) : gv.isEmpty = false := by
  cases g with
  | none => simp [loadGlobalDefault] at h
  | some t =>
    simp only [loadGlobalDefault] at h
    split at h
    · simp at h
    next hcond =>
      rw [Option.some.injEq] at h
      subst h
      rw [Bool.not_eq_true] at hcond
      exact hcond

/-- C2: currentStore resolves the explicit command-line store first, then
the local scope default found by the walk, then the global default, and is
absent when all three layers are unset; a layer is set when it holds a
nonempty store value. -/
theorem c2_precedence (cmd : Option Chars) (fsF : List String → Option Chars)
    (cwd home : List String) (g : Option Chars) :
    (∀ cs : Chars, cmd = some cs → cs ≠ [] →
        currentStoreM cmd fsF cwd home g = some cs) ∧
    (truthyS cmd = false → ∀ p t, scopeWalk fsF home cwd = some (p, t) → t ≠ [] →
        currentStoreM cmd fsF cwd home g = some t) ∧
    (truthyS cmd = false → truthyS (getLocalDefaultM fsF cwd home) = false →
        ∀ gv, loadGlobalDefault g = some gv →
        currentStoreM cmd fsF cwd home g = some gv) ∧
    (truthyS cmd = false → truthyS (getLocalDefaultM fsF cwd home) = false →
        loadGlobalDefault g = none →
        currentStoreM cmd fsF cwd home g = none) := by
  refine ⟨?_, ?_, ?_, ?_⟩
  · intro cs h hne
    subst h
    have ht : truthyS (some cs) = true := by
      simpa [truthyS, List.isEmpty_iff] using hne
    simp [currentStoreM, jsOr, ht]
  · intro hc p t hw hne
    have hlocal : getLocalDefaultM fsF cwd home = some t := by
      simp [getLocalDefaultM, hw]
    have ht : truthyS (some t) = true := by
      simpa [truthyS, List.isEmpty_iff] using hne
    simp [currentStoreM, jsOr, hc, hlocal, ht]
  · intro hc hl gv hg
    have ht : truthyS (some gv) = true := by
      simp [truthyS, loadGlobalDefault_some_ne hg]
    simp [currentStoreM, jsOr, hc, hl, hg, ht]
  · intro hc hl hg
    simp [currentStoreM, jsOr, hc, hl, hg]

/-- C2, witness: the four layers exercised at concrete configurations. -/
theorem c2_witness :
    currentStoreM (some ("c.jumpseller.com".data))
      (fun q => if q = ["home", "u", ".jumpseller-store"] then some ("l.jumpseller.com".data) else none)
      ["home", "u"] ["home", "u"] (some ("g.jumpseller.com".data)) =
      some ("c.jumpseller.com".data) ∧
    currentStoreM none
      (fun q => if q = ["home", "u", ".jumpseller-store"] then some ("l.jumpseller.com".data) else none)
      ["home", "u"] ["home", "u"] (some ("g.jumpseller.com".data)) =
      some ("l.jumpseller.com".data) ∧
    currentStoreM none (fun _ => none) ["home", "u"] ["home", "u"]
      (some ("g.jumpseller.com".data)) = some (strTrim ("g.jumpseller.com".data)) ∧
    currentStoreM none (fun _ => none) ["home", "u"] ["home", "u"] none = none := by
  refine ⟨?_, ?_, ?_, ?_⟩
  · exact (c2_precedence _ _ _ _ _).1 _ rfl (by decide)
  · exact (c2_precedence _ _ _ _ _).2.1 (by decide) ["home", "u"] _ (by decide) (by decide)
  · exact (c2_precedence _ _ _ _ _).2.2.1 (by decide) (by decide) _ (by decide)
  · exact (c2_precedence _ _ _ _ _).2.2.2 (by decide) (by decide) (by decide)

/-! ## Newline splitting and joining -/

theorem splitNlAux_nil : splitNlAux [] = ([], []) := rfl

theorem splitNlAux_cons_nl (t : Chars) :
    splitNlAux ('\n' :: t) = ([], (splitNlAux t).1 :: (splitNlAux t).2) := by
  simp [splitNlAux]

theorem splitNlAux_cons {c : Char} (t : Chars) (h : c ≠ '\n') :
    splitNlAux (c :: t) = (c :: (splitNlAux t).1, (splitNlAux t).2) := by
  simp [splitNlAux, h]

theorem splitNlAux_no_nl (s : Chars) :
    '\n' ∉ (splitNlAux s).1 ∧ ∀ l ∈ (splitNlAux s).2, '\n' ∉ l := by
  induction s with
  | nil => simp [splitNlAux]
  | cons c t ih =>
    by_cases hc : c = '\n'
    · subst hc
      rw [splitNlAux_cons_nl]
      refine ⟨by simp, ?_⟩
      intro l hl
      rcases List.mem_cons.mp hl with rfl | hl
      · exact ih.1
      · exact ih.2 l hl
    · rw [splitNlAux_cons t hc]
      refine ⟨?_, ih.2⟩
      intro hm
      rcases List.mem_cons.mp hm with h1 | h1
      · exact hc h1.symm
      · exact ih.1 h1

theorem splitNl_no_nl {s : Chars} : ∀ l ∈ splitNl s, '\n' ∉ l := by
  intro l hl
  rcases List.mem_cons.mp hl with rfl | hl
  · exact (splitNlAux_no_nl s).1
  · exact (splitNlAux_no_nl s).2 l hl

theorem splitNlAux_of_no_nl {l : Chars} (h : '\n' ∉ l) : splitNlAux l = (l, []) := by
  induction l with
  | nil => rfl
  | cons c t ih =>
    have hc : c ≠ '\n' := fun hx => h (hx ▸ List.mem_cons_self c t)
    rw [splitNlAux_cons t hc, ih (fun hx => h (List.mem_cons_of_mem c hx))]

theorem splitNl_of_no_nl {l : Chars} (h : '\n' ∉ l) : splitNl l = [l] := by
  rw [splitNl, splitNlAux_of_no_nl h]

theorem splitNlAux_append_nl {l : Chars} (h : '\n' ∉ l) (x : Chars) :
    splitNlAux (l ++ '\n' :: x) = (l, (splitNlAux x).1 :: (splitNlAux x).2) := by
  induction l with
  | nil => simpa using splitNlAux_cons_nl x
  | cons c t ih =>
    have hc : c ≠ '\n' := fun hx => h (hx ▸ List.mem_cons_self c t)
    rw [List.cons_append, splitNlAux_cons _ hc,
      ih (fun hx => h (List.mem_cons_of_mem c hx))]

theorem joinNl_cons (l : Chars) {ls : List Chars} (h : ls ≠ []) :
    joinNl (l :: ls) = l ++ '\n' :: joinNl ls := by
  cases ls with
  | nil => exact absurd rfl h
  | cons r rs => rfl

theorem splitNl_joinNl {ls : List Chars} (hne : ls ≠ [])
    (h : ∀ l ∈ ls, '\n' ∉ l) : splitNl (joinNl ls) = ls := by
  induction ls with
  | nil => exact absurd rfl hne
  | cons l rest ih =>
    cases rest with
    | nil =>
      show splitNl (joinNl [l]) = [l]
      exact splitNl_of_no_nl (h l (List.mem_cons_self l []))
    | cons r rs =>
      rw [joinNl_cons l (by simp)]
      rw [splitNl, splitNlAux_append_nl (h l (List.mem_cons_self l _))]
      have hih := ih (by simp) (fun x hx => h x (List.mem_cons_of_mem l hx))
      rw [splitNl, List.cons.injEq] at hih
      show (l : Chars) :: (splitNlAux (joinNl (r :: rs))).1 :: (splitNlAux (joinNl (r :: rs))).2 = l :: r :: rs
      rw [hih.1, hih.2]

theorem joinNl_concat_nil {ls : List Chars} (h : ls ≠ []) :
    joinNl (ls ++ [[]]) = joinNl ls ++ ['\n'] := by
  induction ls with
  | nil => exact absurd rfl h
  | cons l rest ih =>
    cases rest with
    | nil => rfl
    | cons r rs =>
      rw [List.cons_append, joinNl_cons l (by simp), joinNl_cons l (by simp),
        ih (by simp)]
      simp

/-! ## Trimming lemmas -/

theorem strTrimLeft_cons_ws {c : Char} (l : Chars) (h : c.isWhitespace = true) :
    strTrimLeft (c :: l) = strTrimLeft l := by
  simp [strTrimLeft, List.dropWhile_cons, h]

theorem strTrimLeft_cons_keep {c : Char} (l : Chars) (h : c.isWhitespace = false) :
    strTrimLeft (c :: l) = c :: l := by
  simp [strTrimLeft, List.dropWhile_cons, h]

theorem strTrimRight_concat_ws {c : Char} (l : Chars) (h : c.isWhitespace = true) :
    strTrimRight (l ++ [c]) = strTrimRight l := by
  simp [strTrimRight, List.reverse_concat, List.dropWhile_cons, h]

theorem strTrimRight_concat_keep {c : Char} (l : Chars) (h : c.isWhitespace = false) :
    strTrimRight (l ++ [c]) = l ++ [c] := by
  simp [strTrimRight, List.reverse_concat, List.dropWhile_cons, h]

theorem strTrim_cons_ws {c : Char} (l : Chars) (h : c.isWhitespace = true) :
    strTrim (c :: l) = strTrim l := by
  rw [strTrim, strTrim, strTrimLeft_cons_ws l h]

theorem strTrim_concat_ws {c : Char} (l : Chars) (h : c.isWhitespace = true) :
    strTrim (l ++ [c]) = strTrim l := by
  rw [strTrim, strTrim, strTrimLeft, strTrimLeft, List.dropWhile_append]
  split
  · rw [List.dropWhile_cons]
    simp only [h, if_pos, List.dropWhile_nil]
    next hemp =>
      rw [List.isEmpty_iff] at hemp
      rw [hemp]
  · exact strTrimRight_concat_ws _ h

/-! ## canonicalLine lemmas -/

theorem ws_ne_hash {c : Char} (h : c.isWhitespace = true) : (c != '#') = true := by
  rcases ws_char_cases h with rfl | rfl | rfl | rfl <;> decide

theorem canonicalLine_cons_ws {c : Char} (l : Chars) (h : c.isWhitespace = true) :
    canonicalLine (c :: l) = canonicalLine l := by
  rw [canonicalLine, canonicalLine, List.takeWhile_cons, if_pos (ws_ne_hash h),
    strTrim_cons_ws _ h]

theorem canonicalLine_concat_ws {c : Char} (l : Chars) (h : c.isWhitespace = true) :
    canonicalLine (l ++ [c]) = canonicalLine l := by
  rw [canonicalLine, canonicalLine, List.takeWhile_append]
  split
  · next hlen =>
    have hpw : l.takeWhile (fun x => x != '#') <+: l := List.takeWhile_prefix _
    have hfull : l.takeWhile (fun x => x != '#') = l := hpw.eq_of_length hlen
    rw [List.takeWhile_cons, if_pos (ws_ne_hash h)]
    simp only [List.takeWhile_nil]
    rw [hfull, strTrim_concat_ws _ h]
  · rfl

/-! ## Signature lemmas: canonical nonempty lines under trimming -/

theorem canonicalLine_nil : canonicalLine [] = [] := rfl

theorem splitNl_cons_nl (t : Chars) : splitNl ('\n' :: t) = [] :: splitNl t := by
  rw [splitNl, splitNlAux_cons_nl]
  rfl

theorem sig_nil : sigLines [] = [] := rfl

theorem sig_cons_nl (t : Chars) : sigLines ('\n' :: t) = sigLines t := by
  rw [sigLines, splitNl_cons_nl, List.map_cons, canonicalLine_nil, List.filter_cons]
  simp [sigLines]

theorem sig_cons_ws {c : Char} (t : Chars) (hw : c.isWhitespace = true)
    (hc : c ≠ '\n') : sigLines (c :: t) = sigLines t := by
  rw [sigLines, sigLines, splitNl, splitNlAux_cons _ hc]
  show (((c :: (splitNlAux t).1) :: (splitNlAux t).2).map canonicalLine).filter _ = _
  rw [List.map_cons, canonicalLine_cons_ws _ hw]
  rfl

theorem sig_trimLeft (s : Chars) : sigLines (strTrimLeft s) = sigLines s := by
  induction s with
  | nil => rfl
  | cons c t ih =>
    by_cases hw : c.isWhitespace = true
    · rw [strTrimLeft_cons_ws _ hw]
      by_cases hc : c = '\n'
      · subst hc; rw [ih, sig_cons_nl]
      · rw [ih, sig_cons_ws _ hw hc]
    · rw [strTrimLeft_cons_keep _ (by simpa using hw)]

theorem sig_allws {s : Chars} (h : ∀ ch ∈ s, ch.isWhitespace = true) :
    sigLines s = [] := by
  induction s with
  | nil => rfl
  | cons c t ih =>
    have hw := h c (List.mem_cons_self c t)
    have ht := ih (fun ch hm => h ch (List.mem_cons_of_mem c hm))
    by_cases hc : c = '\n'
    · subst hc; rw [sig_cons_nl, ht]
    · rw [sig_cons_ws _ hw hc, ht]

theorem splitNlAux_concat_nl (s : Chars) :
    splitNlAux (s ++ ['\n']) = ((splitNlAux s).1, (splitNlAux s).2 ++ [[]]) := by
  induction s with
  | nil => rfl
  | cons x t ih =>
    by_cases hx : x = '\n'
    · subst hx
      rw [List.cons_append, splitNlAux_cons_nl, splitNlAux_cons_nl, ih]
      rfl
    · rw [List.cons_append, splitNlAux_cons _ hx, splitNlAux_cons _ hx, ih]

theorem splitNlAux_concat {c : Char} (hc : c ≠ '\n') (s : Chars) :
    splitNlAux (s ++ [c]) =
      if (splitNlAux s).2 = [] then ((splitNlAux s).1 ++ [c], [])
      else ((splitNlAux s).1,
        (splitNlAux s).2.dropLast ++ [(splitNlAux s).2.getLastD [] ++ [c]]) := by
  induction s with
  | nil => simp [splitNlAux, hc]
  | cons x t ih =>
    by_cases hx : x = '\n'
    · subst hx
      rw [List.cons_append, splitNlAux_cons_nl, splitNlAux_cons_nl, ih]
      by_cases hR : (splitNlAux t).2 = []
      · rw [if_pos hR, if_neg (by simp), hR]
        simp
      · obtain ⟨r, rs, hrs⟩ := List.exists_cons_of_ne_nil hR
        rw [if_neg hR, if_neg (by simp), hrs]
        simp [List.getLastD_cons]
    · rw [List.cons_append, splitNlAux_cons _ hx, splitNlAux_cons _ hx, ih]
      by_cases hR : (splitNlAux t).2 = []
      · rw [if_pos hR, if_pos hR]
        simp
      · rw [if_neg hR, if_neg hR]

theorem sig_concat_ws {c : Char} (s : Chars) (hw : c.isWhitespace = true) :
    sigLines (s ++ [c]) = sigLines s := by
  by_cases hc : c = '\n'
  · subst hc
    rw [sigLines, sigLines, splitNl, splitNl, splitNlAux_concat_nl]
    show ((((splitNlAux s).1 :: ((splitNlAux s).2 ++ [[]])).map canonicalLine).filter _) = _
    rw [List.map_cons, List.map_append, ← List.cons_append, List.filter_append]
    simp [canonicalLine_nil]
  · rw [sigLines, sigLines, splitNl, splitNl, splitNlAux_concat hc]
    by_cases hR : (splitNlAux s).2 = []
    · rw [if_pos hR, hR]
      show ((((splitNlAux s).1 ++ [c]) :: ([] : List Chars)).map canonicalLine).filter _ = _
      simp [canonicalLine_concat_ws _ hw]
    · rw [if_neg hR]
      obtain ⟨r, rs, hrs⟩ := List.exists_cons_of_ne_nil hR
      rw [hrs]
      have hgl : (r :: rs).getLastD [] = (r :: rs).getLast (by simp) := by
        rw [List.getLast_eq_getLastD, List.getLastD_cons]
      conv_rhs => rw [← List.dropLast_concat_getLast (show r :: rs ≠ [] by simp)]
      rw [hgl]
      simp [List.filter_append, canonicalLine_concat_ws _ hw]

theorem sig_trimRight (s : Chars) : sigLines (strTrimRight s) = sigLines s := by
  induction s using List.reverseRecOn with
  | nil => rfl
  | append_singleton xs x ih =>
    by_cases hw : x.isWhitespace = true
    · rw [strTrimRight_concat_ws _ hw, ih, sig_concat_ws _ hw]
    · rw [strTrimRight_concat_keep _ (by simpa using hw)]

theorem sig_strTrim (s : Chars) : sigLines (strTrim s) = sigLines s := by
  rw [strTrim, sig_trimRight, sig_trimLeft]

theorem strTrimLeft_idem (s : Chars) : strTrimLeft (strTrimLeft s) = strTrimLeft s := by
  induction s with
  | nil => rfl
  | cons c t ih =>
    by_cases hw : c.isWhitespace = true
    · rw [strTrimLeft_cons_ws _ hw, ih]
    · rw [strTrimLeft_cons_keep _ (by simpa using hw), strTrimLeft_cons_keep _ (by simpa using hw)]

/-! ## joinLines and the line signature -/

theorem take_findIdx_false {α : Type} (p : α → Bool) (ls : List α) :
    ∀ x ∈ ls.take (ls.findIdx p), p x = false := by
  induction ls with
  | nil => simp
  | cons c t ih =>
    rw [List.findIdx_cons]
    by_cases hc : p c
    · simp [hc]
    · have hc' : p c = false := by simpa using hc
      simp only [hc', cond_false, List.take_succ_cons]
      intro x hx
      rcases List.mem_cons.mp hx with rfl | hx1
      · exact hc'
      · exact ih x hx1

theorem joinNl_allnil {ls : List Chars} (h : ∀ l ∈ ls, l = []) :
    ∀ ch ∈ joinNl ls, ch = '\n' := by
  induction ls with
  | nil => simp [joinNl]
  | cons l rest ih =>
    cases rest with
    | nil =>
      intro ch hch
      rw [show joinNl [l] = l from rfl, h l (by simp)] at hch
      simp at hch
    | cons r rs =>
      rw [joinNl_cons l (by simp), h l (by simp)]
      intro ch hch
      rcases List.mem_cons.mp (by simpa using hch) with rfl | hch1
      · rfl
      · exact ih (fun x hx => h x (List.mem_cons_of_mem l hx)) ch hch1

theorem filter_map_canonical_allnil {ls : List Chars} (h : ∀ l ∈ ls, l = []) :
    (ls.map canonicalLine).filter (fun cl => !cl.isEmpty) = [] := by
  rw [List.filter_eq_nil_iff]
  intro cl hcl
  obtain ⟨l, hl, rfl⟩ := List.mem_map.mp hcl
  rw [h l hl, canonicalLine_nil]
  simp

theorem sig_joinLines {ls : List Chars} (h : ∀ l ∈ ls, '\n' ∉ l) :
    sigLines (joinLines ls) = (ls.map canonicalLine).filter (fun cl => !cl.isEmpty) := by
  by_cases hk : ls.findIdx (fun l => !l.isEmpty) = ls.length
  · have hall : ∀ x ∈ ls, x = [] := by
      intro x hx
      have := List.findIdx_eq_length.mp hk x hx
      simpa [List.isEmpty_iff] using this
    rw [joinLines]
    simp only [if_pos hk]
    by_cases hnil : ls.isEmpty
    · rw [if_pos hnil]
      rw [List.isEmpty_iff] at hnil
      subst hnil
      rfl
    · rw [if_neg hnil]
      rw [sig_allws, filter_map_canonical_allnil hall]
      intro ch hch
      rcases List.mem_append.mp hch with h1 | h1
      · rw [joinNl_allnil hall ch h1]; decide
      · rcases List.mem_singleton.mp h1 with rfl; decide
  · have hklt : ls.findIdx (fun l => !l.isEmpty) < ls.length :=
      lt_of_le_of_ne (List.findIdx_le_length _) hk
    have hdrop_ne : ls.drop (ls.findIdx (fun l => !l.isEmpty)) ≠ [] := by
      intro hx
      have := congrArg List.length hx
      rw [List.length_drop] at this
      simp at this
      omega
    rw [joinLines]
    simp only [if_neg hk]
    have hdrop_empty : (ls.drop (ls.findIdx (fun l => !l.isEmpty))).isEmpty = false := by
      simpa [List.isEmpty_iff] using hdrop_ne
    rw [hdrop_empty]
    simp only [Bool.false_eq_true, if_false]
    rw [← joinNl_concat_nil hdrop_ne, sigLines,
      splitNl_joinNl (by simp) ?hfree]
    case hfree =>
      intro l hl
      rcases List.mem_append.mp hl with h1 | h1
      · exact h l (List.mem_of_mem_drop h1)
      · rcases List.mem_singleton.mp h1 with rfl; simp
    rw [List.map_append, List.filter_append]
    have hlast : (([[]] : List Chars).map canonicalLine).filter (fun cl => !cl.isEmpty) = [] := by
      simp [canonicalLine_nil]
    rw [hlast, List.append_nil]
    conv_rhs => rw [← List.take_append_drop (ls.findIdx (fun l => !l.isEmpty)) ls]
    rw [List.map_append, List.filter_append]
    have htake : ((ls.take (ls.findIdx (fun l => !l.isEmpty))).map canonicalLine).filter
        (fun cl => !cl.isEmpty) = [] := by
      apply filter_map_canonical_allnil
      intro x hx
      have := take_findIdx_false (fun l => !l.isEmpty) ls x hx
      simpa [List.isEmpty_iff] using this
    rw [htake, List.nil_append]

theorem credFold_filter_map (lines : List Chars)
    (acc : List (Chars × Chars) × List Chars) :
    (lines.filter (fun l => !(canonicalLine l).isEmpty)).foldl
      (fun a l => credEntryStep a (canonicalLine l)) acc
    = credFold acc ((lines.map canonicalLine).filter (fun cl => !cl.isEmpty)) := by
  induction lines generalizing acc with
  | nil => rfl
  | cons l t ih =>
    rw [List.filter_cons, List.map_cons, List.filter_cons]
    by_cases hc : (!(canonicalLine l).isEmpty) = true
    · rw [if_pos hc, if_pos hc, List.foldl_cons]
      rw [ih]
      rfl
    · rw [if_neg hc, if_neg hc]
      exact ih acc

theorem listCredentialsOf_eq_credFold (content : Chars) :
    listCredentialsOf content = credFold ([], []) (sigLines content) := by
  rw [listCredentialsOf]
  by_cases h : content.isEmpty
  · rw [List.isEmpty_iff] at h
    subst h
    rfl
  · rw [splitLines, if_neg (by simpa [List.isEmpty_iff] using h), sigLines]
    exact credFold_filter_map _ _

/-! ## Map model lemmas -/

theorem lookupDomain_append_some {l1 l2 : List (Chars × Chars)} {d v : Chars}
    (h : lookupDomain l1 d = some v) :
    lookupDomain (l1 ++ l2) d = some v := by
  induction l1 with
  | nil => simp [lookupDomain] at h
  | cons p r ih =>
    obtain ⟨k, w⟩ := p
    rw [List.cons_append, lookupDomain] at *
    by_cases hk : k = d
    · rw [if_pos hk] at h ⊢; exact h
    · rw [if_neg hk] at h ⊢; exact ih h

theorem lookupDomain_append_none {l1 l2 : List (Chars × Chars)} {d : Chars}
    (h : lookupDomain l1 d = none) :
    lookupDomain (l1 ++ l2) d = lookupDomain l2 d := by
  induction l1 with
  | nil => rfl
  | cons p r ih =>
    obtain ⟨k, w⟩ := p
    rw [lookupDomain] at h
    by_cases hk : k = d
    · rw [if_pos hk] at h; exact absurd h (by simp)
    · rw [List.cons_append, lookupDomain, if_neg hk]
      rw [if_neg hk] at h
      exact ih h

theorem hasDomain_false_iff {l : List (Chars × Chars)} {d : Chars} :
    hasDomain l d = false ↔ lookupDomain l d = none := by
  induction l with
  | nil => simp [hasDomain, lookupDomain]
  | cons p r ih =>
    obtain ⟨k, w⟩ := p
    rw [hasDomain, lookupDomain]
    by_cases hk : k = d
    · rw [if_pos hk, if_pos hk]; simp
    · rw [if_neg hk, if_neg hk]; exact ih

/-! ## The canonical credential line -/

theorem credLine_chars {d c : Chars}
    (hd : parseStoreReference d = (true, d)) (hc : validCredentials c = true) :
    (∀ ch ∈ d, ch.isWhitespace = false ∧ ch ≠ '#') ∧
    (∀ ch ∈ c, ch.isWhitespace = false ∧ ch ≠ '#') ∧ d ≠ [] ∧ c ≠ [] := by
  obtain ⟨hdne, hdch⟩ := parse_fixpoint_chars hd
  obtain ⟨hcne, hcch⟩ := validCredentials_chars hc
  refine ⟨fun ch hm => ⟨goodDomainChar_not_ws (hdch ch hm), goodDomainChar_ne_hash (hdch ch hm)⟩,
    fun ch hm => ⟨hexColonChar_not_ws (hcch ch hm), hexColonChar_ne_hash (hcch ch hm)⟩,
    hdne, hcne⟩

theorem firstToken_credLine {d c : Chars}
    (hd : parseStoreReference d = (true, d)) (hc : validCredentials c = true) :
    firstToken (credLine d c) = d := by
  obtain ⟨hdch, _, _, _⟩ := credLine_chars hd hc
  rw [credLine, firstToken,
    List.takeWhile_append_of_pos (fun a ha => by simp [(hdch a ha).1]),
    List.takeWhile_cons]
  simp

theorem dropWhile_none {p : Char → Bool} {l : Chars} (h : ∀ a ∈ l, p a = false) :
    l.dropWhile p = l := by
  cases l with
  | nil => rfl
  | cons a t => rw [List.dropWhile_cons, if_neg (by simp [h a (by simp)])]

theorem secondToken_credLine {d c : Chars}
    (hd : parseStoreReference d = (true, d)) (hc : validCredentials c = true) :
    secondToken (credLine d c) = some c := by
  obtain ⟨hdch, hcch, _, hcne⟩ := credLine_chars hd hc
  rw [credLine, secondToken]
  rw [List.dropWhile_append_of_pos (fun a ha => by simp [(hdch a ha).1])]
  rw [List.dropWhile_cons]
  simp only [show (!(' '.isWhitespace)) = false by decide, Bool.false_eq_true, if_false]
  rw [List.dropWhile_cons]
  simp only [show ' '.isWhitespace = true by decide, if_true]
  rw [dropWhile_none (fun a ha => (hcch a ha).1)]
  rw [if_neg (by simpa [List.isEmpty_iff] using hcne)]
  rw [takeWhile_all (fun a ha => by simp [(hcch a ha).1])]

theorem canonicalLine_credLine {d c : Chars}
    (hd : parseStoreReference d = (true, d)) (hc : validCredentials c = true) :
    canonicalLine (credLine d c) = credLine d c := by
  obtain ⟨hdch, hcch, hdne, hcne⟩ := credLine_chars hd hc
  have hhash : ∀ ch ∈ credLine d c, (ch != '#') = true := by
    intro ch hm
    rw [credLine] at hm
    rcases List.mem_append.mp hm with h1 | h1
    · simp [bne_iff_ne, (hdch ch h1).2]
    · rcases List.mem_cons.mp h1 with rfl | h2
      · decide
      · simp [bne_iff_ne, (hcch ch h2).2]
  rw [canonicalLine, takeWhile_all hhash]
  obtain ⟨dh, dt, rfl⟩ := List.exists_cons_of_ne_nil hdne
  obtain ⟨c0, cl, hcc⟩ := (List.eq_nil_or_concat c).resolve_left hcne
  rw [List.concat_eq_append] at hcc
  subst hcc
  have hshape : credLine (dh :: dt) (c0 ++ [cl]) =
      dh :: ((dt ++ ' ' :: c0) ++ [cl]) := by
    simp [credLine]
  rw [hshape, strTrim, strTrimLeft_cons_keep _ (hdch dh (by simp)).1]
  rw [show dh :: ((dt ++ ' ' :: c0) ++ [cl]) = (dh :: (dt ++ ' ' :: c0)) ++ [cl] by simp]
  rw [strTrimRight_concat_keep _ (hcch cl (by simp)).1]

/-! ## Behavior of the credential fold -/

theorem credEntryStep_entries (acc : List (Chars × Chars) × List Chars) (cl : Chars) :
    (credEntryStep acc cl).1 = acc.1 ∨
    ((credEntryStep acc cl).1 = acc.1 ++ [(firstToken cl, (secondToken cl).getD [])] ∧
     hasDomain acc.1 (firstToken cl) = false) := by
  simp only [credEntryStep]
  split
  · left; rfl
  · split
    · left; rfl
    · split
      · left; rfl
      · next h => right; exact ⟨rfl, by simpa using h⟩

theorem credEntryStep_lookup_some {acc : List (Chars × Chars) × List Chars}
    {cl d v : Chars} (h : lookupDomain acc.1 d = some v) :
    lookupDomain (credEntryStep acc cl).1 d = some v := by
  rcases credEntryStep_entries acc cl with he | ⟨he, _⟩
  · rw [he]; exact h
  · rw [he]; exact lookupDomain_append_some h

theorem credEntryStep_lookup_none_of_ne {acc : List (Chars × Chars) × List Chars}
    {cl d : Chars} (hne : firstToken cl ≠ d) (h : lookupDomain acc.1 d = none) :
    lookupDomain (credEntryStep acc cl).1 d = none := by
  rcases credEntryStep_entries acc cl with he | ⟨he, _⟩
  · rw [he]; exact h
  · rw [he, lookupDomain_append_none h]
    simp [lookupDomain, hne]

theorem credEntryStep_accept {acc : List (Chars × Chars) × List Chars} {d c : Chars}
    (hd : parseStoreReference d = (true, d)) (hc : validCredentials c = true)
    (hno : hasDomain acc.1 d = false) :
    credEntryStep acc (credLine d c) = (acc.1 ++ [(d, c)], acc.2) := by
  simp only [credEntryStep, firstToken_credLine hd hc, secondToken_credLine hd hc, hd,
    validCredentialsOpt]
  rw [if_neg (by simp), if_neg (by simp [hc]), if_neg (by simp [hno])]
  rfl

theorem credFold_lookup_some {d v : Chars} :
    ∀ (cls : List Chars) (acc : List (Chars × Chars) × List Chars),
    lookupDomain acc.1 d = some v →
    lookupDomain (credFold acc cls).1 d = some v := by
  intro cls
  induction cls with
  | nil => exact fun acc h => h
  | cons cl rest ih =>
    intro acc h
    exact ih (credEntryStep acc cl) (credEntryStep_lookup_some h)

theorem credFold_lookup_insert {d c : Chars}
    (hd : parseStoreReference d = (true, d)) (hc : validCredentials c = true) :
    ∀ (cls : List Chars) (acc : List (Chars × Chars) × List Chars),
    (∀ cl ∈ cls, firstToken cl = d → cl = credLine d c) →
    (lookupDomain acc.1 d = some c ∨
      (lookupDomain acc.1 d = none ∧ credLine d c ∈ cls)) →
    lookupDomain (credFold acc cls).1 d = some c := by
  intro cls
  induction cls with
  | nil =>
    intro acc _ hinv
    rcases hinv with h | ⟨_, hmem⟩
    · exact h
    · simp at hmem
  | cons cl rest ih =>
    intro acc hall hinv
    have hstep : credFold acc (cl :: rest) = credFold (credEntryStep acc cl) rest := rfl
    rw [hstep]
    rcases hinv with h | ⟨hnone, hmem⟩
    · exact ih _ (fun x hx hf => hall x (List.mem_cons_of_mem cl hx) hf)
        (Or.inl (credEntryStep_lookup_some h))
    · by_cases hfd : firstToken cl = d
      · have hcl : cl = credLine d c := hall cl (List.mem_cons_self cl rest) hfd
        subst hcl
        rw [credEntryStep_accept hd hc (hasDomain_false_iff.mpr hnone)]
        refine ih _ (fun x hx hf => hall x (List.mem_cons_of_mem _ hx) hf) (Or.inl ?_)
        rw [lookupDomain_append_none hnone]
        simp [lookupDomain]
      · have hmem2 : credLine d c ∈ rest := by
          rcases List.mem_cons.mp hmem with heq | h2
          · exact absurd (heq ▸ firstToken_credLine hd hc) hfd
          · exact h2
        exact ih _ (fun x hx hf => hall x (List.mem_cons_of_mem cl hx) hf)
          (Or.inr ⟨credEntryStep_lookup_none_of_ne hfd hnone, hmem2⟩)

/-! ## Round trip through the credentials text -/

theorem splitLines_no_nl {content : Chars} : ∀ l ∈ splitLines content, '\n' ∉ l := by
  rw [splitLines]
  split
  · simp
  · exact fun l hl => splitNl_no_nl l hl

theorem credLine_no_nl {d c : Chars}
    (hd : parseStoreReference d = (true, d)) (hc : validCredentials c = true) :
    '\n' ∉ credLine d c := by
  obtain ⟨hdch, hcch, _, _⟩ := credLine_chars hd hc
  intro hm
  rw [credLine] at hm
  rcases List.mem_append.mp hm with h1 | h1
  · exact absurd (hdch '\n' h1).1 (by decide)
  · rcases List.mem_cons.mp h1 with h2 | h2
    · exact absurd h2 (by decide)
    · exact absurd (hcch '\n' h2).1 (by decide)

theorem credLine_ne_nil {d c : Chars}
    (hd : parseStoreReference d = (true, d)) (hc : validCredentials c = true) :
    credLine d c ≠ [] := by
  obtain ⟨_, _, hdne, _⟩ := credLine_chars hd hc
  rw [credLine]
  simp [hdne]

theorem credFold_sig_lines_lookup {ls : List Chars} {d c : Chars}
    (hd : parseStoreReference d = (true, d)) (hc : validCredentials c = true)
    (hfree : ∀ l ∈ ls, '\n' ∉ l)
    (hall : ∀ l ∈ ls, firstToken (canonicalLine l) = d → l = credLine d c)
    (hmem : credLine d c ∈ ls) :
    lookupDomain (listCredentialsOf (joinLines ls)).1 d = some c ∧
    lookupDomain (listCredentialsOf (strTrim (strTrimLeft (joinLines ls)))).1 d = some c := by
  have hsig1 : sigLines (joinLines ls) =
      (ls.map canonicalLine).filter (fun cl => !cl.isEmpty) := sig_joinLines hfree
  have hsig2 : sigLines (strTrim (strTrimLeft (joinLines ls))) = sigLines (joinLines ls) := by
    rw [sig_strTrim, sig_trimLeft]
  have hcls_all : ∀ cl ∈ (ls.map canonicalLine).filter (fun cl => !cl.isEmpty),
      firstToken cl = d → cl = credLine d c := by
    intro cl hcl hf
    obtain ⟨l, hl, rfl⟩ := List.mem_map.mp (List.mem_of_mem_filter hcl)
    rw [hall l hl hf, canonicalLine_credLine hd hc]
  have hcls_mem : credLine d c ∈
      (ls.map canonicalLine).filter (fun cl => !cl.isEmpty) := by
    rw [List.mem_filter]
    constructor
    · rw [← canonicalLine_credLine hd hc]
      exact List.mem_map_of_mem canonicalLine hmem
    · simpa [List.isEmpty_iff] using credLine_ne_nil hd hc
  constructor
  · rw [listCredentialsOf_eq_credFold, hsig1]
    exact credFold_lookup_insert hd hc _ _ hcls_all (Or.inr ⟨rfl, hcls_mem⟩)
  · rw [listCredentialsOf_eq_credFold, hsig2, hsig1]
    exact credFold_lookup_insert hd hc _ _ hcls_all (Or.inr ⟨rfl, hcls_mem⟩)

theorem addCredentialsText_lookup {content d c : Chars}
    (hd : parseStoreReference d = (true, d)) (hc : validCredentials c = true) :
    lookupDomain (listCredentialsOf (addCredentialsText content d c)).1 d = some c ∧
    lookupDomain (listCredentialsOf
      (strTrim (strTrimLeft (addCredentialsText content d c)))).1 d = some c := by
  rw [addCredentialsText]
  apply credFold_sig_lines_lookup hd hc
  · intro l hl
    split at hl
    · obtain ⟨l0, hl0, rfl⟩ := List.mem_map.mp hl
      split
      · exact credLine_no_nl hd hc
      · exact splitLines_no_nl l0 hl0
    · rcases List.mem_append.mp hl with h1 | h1
      · obtain ⟨l0, hl0, rfl⟩ := List.mem_map.mp h1
        split
        · exact credLine_no_nl hd hc
        · exact splitLines_no_nl l0 hl0
      · rcases List.mem_singleton.mp h1 with rfl
        exact credLine_no_nl hd hc
  · intro l hl hf
    split at hl
    · obtain ⟨l0, hl0, heq⟩ := List.mem_map.mp hl
      by_cases hcond : firstToken (canonicalLine l0) = d
      · rw [if_pos hcond] at heq
        exact heq.symm
      · rw [if_neg hcond] at heq
        subst heq
        exact absurd hf hcond
    · rcases List.mem_append.mp hl with h1 | h1
      · obtain ⟨l0, hl0, heq⟩ := List.mem_map.mp h1
        by_cases hcond : firstToken (canonicalLine l0) = d
        · rw [if_pos hcond] at heq
          exact heq.symm
        · rw [if_neg hcond] at heq
          subst heq
          exact absurd hf hcond
      · exact List.mem_singleton.mp h1
  · split
    · next hany =>
      obtain ⟨l0, hl0, hdec⟩ := List.any_eq_true.mp hany
      have hcond : firstToken (canonicalLine l0) = d := of_decide_eq_true hdec
      refine List.mem_map.mpr ⟨l0, hl0, ?_⟩
      show (if firstToken (canonicalLine l0) = d then credLine d c else l0) = credLine d c
      rw [if_pos hcond]
    · exact List.mem_append.mpr (Or.inr (by simp))

/-- C5: for every prior state, adding credentials for a canonical domain and
flushing makes listCredentials map that domain to those credentials, both in
the same process (using the cached text) and in a fresh process that
re-reads the persisted file from disk. -/
theorem c5_roundtrip (st : AuthState) (d c : Chars)
    (hd : parseStoreReference d = (true, d)) (hc : validCredentials c = true) :
    lookupDomain (listCredentialsS (flushS (addCredentialsS st d c))).1.1 d = some c ∧
    lookupDomain (listCredentialsS (freshProcess
      ((flushS (addCredentialsS st d c)).disk))).1.1 d = some c := by
  have h1 : flushS (addCredentialsS st d c) =
      { disk := strTrimLeft (addCredentialsText (loadContent st) d c),
        credentialsText := some (addCredentialsText (loadContent st) d c),
        credentialsTextChanged := true,
        writeCount := st.writeCount + 1 } := rfl
  rw [h1]
  constructor
  · exact (addCredentialsText_lookup hd hc).1
  · exact (addCredentialsText_lookup hd hc).2

/-- C5, witness: the round trip at a concrete store and credential on top of
a nonempty initial file that also has comments and other lines. -/
theorem c5_witness :
    lookupDomain (listCredentialsS (flushS (addCredentialsS
      (freshProcess ("# comment\nother.jumpseller.com 0123456789abcdef0123456789abcdef:0123456789abcdef0123456789abcdef\n".data))
      ("x.jumpseller.com".data)
      ("aaaaaaaaaaaaaaaaaaaaaaaaaaaaaaaa:bbbbbbbbbbbbbbbbbbbbbbbbbbbbbbbb".data)))).1.1
      ("x.jumpseller.com".data) =
      some ("aaaaaaaaaaaaaaaaaaaaaaaaaaaaaaaa:bbbbbbbbbbbbbbbbbbbbbbbbbbbbbbbb".data) ∧
    lookupDomain (listCredentialsS (freshProcess ((flushS (addCredentialsS
      (freshProcess ("# comment\nother.jumpseller.com 0123456789abcdef0123456789abcdef:0123456789abcdef0123456789abcdef\n".data))
      ("x.jumpseller.com".data)
      ("aaaaaaaaaaaaaaaaaaaaaaaaaaaaaaaa:bbbbbbbbbbbbbbbbbbbbbbbbbbbbbbbb".data))).disk))).1.1
      ("x.jumpseller.com".data) =
      some ("aaaaaaaaaaaaaaaaaaaaaaaaaaaaaaaa:bbbbbbbbbbbbbbbbbbbbbbbbbbbbbbbb".data) :=
  c5_roundtrip _ _ _ (by decide) (by decide)

/-! ## Removal and flushing -/

theorem sig_splitLines (content : Chars) :
    ((splitLines content).map canonicalLine).filter (fun cl => !cl.isEmpty) =
      sigLines content := by
  rw [splitLines]
  split
  · next h =>
    rw [List.isEmpty_iff] at h
    subst h
    rfl
  · rfl

theorem listCredentialsOf_joinLines_splitLines (content : Chars) :
    listCredentialsOf (joinLines (splitLines content)) = listCredentialsOf content := by
  rw [listCredentialsOf_eq_credFold, listCredentialsOf_eq_credFold,
    sig_joinLines (fun l hl => splitLines_no_nl l hl), sig_splitLines]

/-- C7, counterexample to the claim as stated: removing a domain with no
entry in the file still sets the dirty flag and renormalizes the cached
credential text (a trailing newline is added), so it is not a no-op. -/
theorem c7_counterexample :
    (∀ l ∈ splitLines (loadContent (freshProcess ("x y".data))),
        firstToken (canonicalLine l) ≠ "q".data) ∧
    (removeCredentialsS (freshProcess ("x y".data)) ("q".data)).credentialsTextChanged = true ∧
    (removeCredentialsS (freshProcess ("x y".data)) ("q".data)).credentialsText ≠
      some (loadContent (freshProcess ("x y".data))) := by
  exact ⟨by decide, by decide, by decide⟩

/-- C7, amended: removing a domain with no entry keeps every line (the text
is only rejoined, acquiring a trailing newline) and leaves the parsed
credential map and its warnings unchanged, but it does set the dirty flag. -/
theorem c7_amended (st : AuthState) (d : Chars)
    (habsent : ∀ l ∈ splitLines (loadContent st), firstToken (canonicalLine l) ≠ d) :
    (removeCredentialsS st d).credentialsTextChanged = true ∧
    (removeCredentialsS st d).credentialsText =
      some (joinLines (splitLines (loadContent st))) ∧
    (listCredentialsS (removeCredentialsS st d)).1 = (listCredentialsS st).1 := by
  have hfilter : (splitLines (loadContent st)).filter
      (fun l => !decide (firstToken (canonicalLine l) = d)) = splitLines (loadContent st) := by
    rw [List.filter_eq_self]
    intro l hl
    simp [habsent l hl]
  have htext : removeCredentialsText (loadContent st) d =
      joinLines (splitLines (loadContent st)) := by
    rw [removeCredentialsText, hfilter]
  refine ⟨rfl, ?_, ?_⟩
  · show some (removeCredentialsText (loadContent st) d) = _
    rw [htext]
  · show listCredentialsOf (loadContent (removeCredentialsS st d)) =
      listCredentialsOf (loadContent st)
    have hload : loadContent (removeCredentialsS st d) =
        removeCredentialsText (loadContent st) d := rfl
    rw [hload, htext, listCredentialsOf_joinLines_splitLines]

/-- C7, witness: the amended statement at a concrete state and absent domain. -/
theorem c7_witness :
    (removeCredentialsS (freshProcess ("a.jumpseller.com zz".data))
      ("q.jumpseller.com".data)).credentialsTextChanged = true ∧
    (removeCredentialsS (freshProcess ("a.jumpseller.com zz".data))
      ("q.jumpseller.com".data)).credentialsText =
      some (joinLines (splitLines (loadContent (freshProcess ("a.jumpseller.com zz".data))))) ∧
    (listCredentialsS (removeCredentialsS (freshProcess ("a.jumpseller.com zz".data))
      ("q.jumpseller.com".data))).1 =
      (listCredentialsS (freshProcess ("a.jumpseller.com zz".data))).1 :=
  c7_amended (freshProcess ("a.jumpseller.com zz".data)) ("q.jumpseller.com".data) (by decide)

/-- C8, counterexample to the claim as stated: flushing a dirty state leaves
the dirty flag set, and a second flush with no intervening mutation performs
a second write. -/
theorem c8_counterexample :
    (flushS { disk := [], credentialsText := some ("a b".data), credentialsTextChanged := true, writeCount := 0 }).credentialsTextChanged = true ∧
    (flushS (flushS { disk := [], credentialsText := some ("a b".data), credentialsTextChanged := true, writeCount := 0 })).writeCount = 2 := by
  exact ⟨by decide, by decide⟩

/-- C8, amended: flush writes the trimmed cached text to disk exactly when
the dirty flag is set and otherwise changes nothing, but it never clears the
flag: a second flush with no intervening mutation writes again, producing
the same disk content. -/
theorem c8_amended (st : AuthState) :
    (st.credentialsTextChanged = false → flushS st = st) ∧
    (st.credentialsTextChanged = true →
      (flushS st).disk = strTrimLeft (st.credentialsText.getD []) ∧
      (flushS st).writeCount = st.writeCount + 1 ∧
      (flushS st).credentialsTextChanged = true ∧
      (flushS (flushS st)).writeCount = st.writeCount + 2 ∧
      (flushS (flushS st)).disk = (flushS st).disk) := by
  constructor
  · intro h
    rw [flushS, if_neg (by simp [h])]
  · intro h
    refine ⟨?_, ?_, ?_, ?_, ?_⟩ <;> simp [flushS, h]

/-- C8, witness: the amended statement at a clean and a dirty concrete state. -/
theorem c8_witness :
    flushS (freshProcess ("a b".data)) = freshProcess ("a b".data) ∧
    (flushS { disk := [], credentialsText := some ("a b".data), credentialsTextChanged := true, writeCount := 0 }).disk =
      strTrimLeft ((some ("a b".data)).getD []) ∧
    (flushS (flushS { disk := [], credentialsText := some ("a b".data), credentialsTextChanged := true, writeCount := 0 })).writeCount = 0 + 2 := by
  refine ⟨(c8_amended (freshProcess ("a b".data))).1 rfl, ?_, ?_⟩
  · exact ((c8_amended _).2 rfl).1
  · exact ((c8_amended _).2 rfl).2.2.2.1

/-! ## Refinement of listCredentials against the spec description -/

theorem hasDomain_iff_mem_keys {l : List (Chars × Chars)} {d : Chars} :
    hasDomain l d = true ↔ d ∈ l.map Prod.fst := by
  induction l with
  | nil => simp [hasDomain]
  | cons p r ih =>
    obtain ⟨k, w⟩ := p
    rw [hasDomain]
    by_cases hk : k = d
    · subst hk; simp
    · rw [if_neg hk]
      simp only [List.map_cons, List.mem_cons]
      constructor
      · intro h; exact Or.inr (ih.mp h)
      · intro h
        rcases h with h | h
        · exact absurd h.symm hk
        · exact ih.mpr h

theorem specCredEntries_congr_seen : ∀ (cls : List Chars) (s1 s2 : List Chars),
    (∀ x, x ∈ s1 ↔ x ∈ s2) → specCredEntries cls s1 = specCredEntries cls s2 := by
  intro cls
  induction cls with
  | nil => intro s1 s2 _; rfl
  | cons cl rest ih =>
    intro s1 s2 hiff
    rw [specCredEntries, specCredEntries]
    by_cases hok : specLineOk cl = true ∧ firstToken cl ∉ s1
    · rw [if_pos hok, if_pos ⟨hok.1, fun hx => hok.2 ((hiff _).mpr hx)⟩]
      rw [ih (firstToken cl :: s1) (firstToken cl :: s2)
        (fun x => by simp [hiff x])]
    · rw [if_neg hok, if_neg (fun hx => hok ⟨hx.1, fun hy => hx.2 ((hiff _).mp hy)⟩)]
      exact ih s1 s2 hiff

theorem credEntryStep_spec (es : List (Chars × Chars)) (ws : List Chars) (cl : Chars) :
    (specLineOk cl = true ∧ hasDomain es (firstToken cl) = false ∧
      credEntryStep (es, ws) cl = (es ++ [(firstToken cl, (secondToken cl).getD [])], ws)) ∨
    ((specLineOk cl = false ∨ hasDomain es (firstToken cl) = true) ∧
      credEntryStep (es, ws) cl = (es, ws ++ [firstToken cl])) := by
  by_cases h1 : (parseStoreReference (firstToken cl)).1 = false ∨
      firstToken cl ≠ (parseStoreReference (firstToken cl)).2
  · right
    refine ⟨Or.inl ?_, ?_⟩
    · rw [specLineOk]
      rcases h1 with h1 | h1
      · simp [h1]
      · simp [h1]
    · rw [credEntryStep]
      simp only [if_pos h1]
  · by_cases h2 : validCredentialsOpt (secondToken cl) = false
    · right
      refine ⟨Or.inl ?_, ?_⟩
      · rw [specLineOk]
        simp [h2]
      · rw [credEntryStep]
        simp only [if_neg h1, if_pos h2]
    · by_cases h3 : hasDomain es (firstToken cl) = true
      · right
        refine ⟨Or.inr h3, ?_⟩
        rw [credEntryStep]
        simp only [if_neg h1, if_neg h2, if_pos h3]
      · left
        have h1a : (parseStoreReference (firstToken cl)).1 = true := by
          cases hb : (parseStoreReference (firstToken cl)).1 with
          | false => exact absurd (Or.inl hb) h1
          | true => rfl
        have h1b : firstToken cl = (parseStoreReference (firstToken cl)).2 := by
          by_contra hx
          exact h1 (Or.inr hx)
        have h2a : validCredentialsOpt (secondToken cl) = true := by simpa using h2
        refine ⟨?_, by simpa using h3, ?_⟩
        · rw [specLineOk]
          simp [h1a, h2a, ← h1b]
        · rw [credEntryStep]
          simp only [if_neg h1, if_neg h2, if_neg h3]

theorem credFold_eq_spec : ∀ (cls : List Chars) (es : List (Chars × Chars)) (ws : List Chars),
    (credFold (es, ws) cls).1 = es ++ specCredEntries cls (es.map Prod.fst) ∧
    (credFold (es, ws) cls).1.length + (credFold (es, ws) cls).2.length
      = es.length + ws.length + cls.length := by
  intro cls
  induction cls with
  | nil => intro es ws; simp [credFold, specCredEntries]
  | cons cl rest ih =>
    intro es ws
    have hstep : credFold (es, ws) (cl :: rest) = credFold (credEntryStep (es, ws) cl) rest := rfl
    rcases credEntryStep_spec es ws cl with ⟨hok, hnodup, heq⟩ | ⟨hbad, heq⟩
    · rw [hstep, heq]
      obtain ⟨ha, hb⟩ := ih (es ++ [(firstToken cl, (secondToken cl).getD [])]) ws
      have hseen : ((es ++ [(firstToken cl, (secondToken cl).getD [])]).map Prod.fst) =
          es.map Prod.fst ++ [firstToken cl] := by simp
      have hnomem : firstToken cl ∉ es.map Prod.fst := by
        intro hx
        rw [← hasDomain_iff_mem_keys] at hx
        rw [hx] at hnodup
        exact absurd hnodup (by simp)
      constructor
      · rw [ha, hseen, specCredEntries, if_pos ⟨hok, hnomem⟩]
        rw [specCredEntries_congr_seen rest (es.map Prod.fst ++ [firstToken cl])
          (firstToken cl :: es.map Prod.fst) (fun x => by simp [or_comm])]
        simp
      · have hlen := hb
        simp only [List.length_append, List.length_cons, List.length_nil] at hlen ⊢
        omega
    · rw [hstep, heq]
      obtain ⟨ha, hb⟩ := ih es (ws ++ [firstToken cl])
      constructor
      · rw [ha, specCredEntries]
        rw [if_neg ?hneg]
        case hneg =>
          intro hx
          rcases hbad with hbad | hbad
          · rw [hx.1] at hbad; exact absurd hbad (by simp)
          · exact hx.2 (hasDomain_iff_mem_keys.mp hbad)
      · have hlen := hb
        simp only [List.length_append, List.length_cons, List.length_nil] at hlen ⊢
        omega

/-- C9: listCredentials is total on any file content and returns exactly the
entries of the canonical nonempty lines that pass the StoreReference check
and the credential-format check, in order, with duplicate domains dropped;
every other such line contributes exactly one warning instead, so the entry
count plus the warning count equals the number of processed lines. -/
theorem c9_listCredentials_spec (content : Chars) :
    (listCredentialsOf content).1 = specCredEntries (sigLines content) [] ∧
    (listCredentialsOf content).1.length + (listCredentialsOf content).2.length
      = (sigLines content).length := by
  rw [listCredentialsOf_eq_credFold]
  have h := credFold_eq_spec (sigLines content) [] []
  simpa using h

/-! ## Validity of every returned entry -/

theorem credEntryStep_append_valid (acc : List (Chars × Chars) × List Chars) (cl : Chars) :
    (credEntryStep acc cl).1 = acc.1 ∨
    (∃ v, (credEntryStep acc cl).1 = acc.1 ++ [(firstToken cl, v)] ∧
      parseStoreReference (firstToken cl) = (true, firstToken cl) ∧
      validCredentials v = true) := by
  obtain ⟨es, ws⟩ := acc
  rcases credEntryStep_spec es ws cl with ⟨hok, _, heq⟩ | ⟨_, heq⟩
  · right
    rw [specLineOk] at hok
    have h1 : (parseStoreReference (firstToken cl)).1 = true := by
      rcases Bool.and_eq_true_iff.mp hok with ⟨hx, _⟩
      exact (Bool.and_eq_true_iff.mp hx).1
    have h2 : firstToken cl = (parseStoreReference (firstToken cl)).2 := by
      rcases Bool.and_eq_true_iff.mp hok with ⟨hx, _⟩
      exact of_decide_eq_true (Bool.and_eq_true_iff.mp hx).2
    have h3 : validCredentialsOpt (secondToken cl) = true :=
      (Bool.and_eq_true_iff.mp hok).2
    have hparse : parseStoreReference (firstToken cl) = (true, firstToken cl) := by
      rw [Prod.ext_iff]
      exact ⟨h1, h2.symm⟩
    cases hsec : secondToken cl with
    | none => rw [hsec] at h3; exact absurd h3 (by simp [validCredentialsOpt])
    | some v =>
      rw [hsec] at h3 heq
      refine ⟨v, ?_, hparse, by simpa [validCredentialsOpt] using h3⟩
      rw [heq]
      rfl
  · left
    rw [heq]

theorem credFold_entries_valid : ∀ (cls : List Chars)
    (acc : List (Chars × Chars) × List Chars),
    (∀ e ∈ acc.1, parseStoreReference e.1 = (true, e.1) ∧ validCredentials e.2 = true) →
    ∀ e ∈ (credFold acc cls).1,
      parseStoreReference e.1 = (true, e.1) ∧ validCredentials e.2 = true := by
  intro cls
  induction cls with
  | nil => exact fun acc h => h
  | cons cl rest ih =>
    intro acc hacc
    apply ih (credEntryStep acc cl)
    rcases credEntryStep_append_valid acc cl with he | ⟨v, he, hp, hv⟩
    · rw [he]; exact hacc
    · rw [he]
      intro e hme
      rcases List.mem_append.mp hme with h1 | h1
      · exact hacc e h1
      · rcases List.mem_singleton.mp h1 with rfl
        exact ⟨hp, hv⟩

/-- C10: every key of the map returned by listCredentials is a fixed point
of parseStoreReference and every value passes the credential format check;
and a line whose bare-label domain parses successfully but is not canonical
is discarded rather than normalized, so its canonical form is absent. -/
theorem c10_canonical_invariant :
    (∀ (content : Chars) (e : Chars × Chars), e ∈ (listCredentialsOf content).1 →
        parseStoreReference e.1 = (true, e.1) ∧ validCredentials e.2 = true) ∧
    parseStoreReference ("foo".data) =
      (true, "foo.jumpseller.com".data) ∧
    (listCredentialsOf
      ("foo 0123456789abcdef0123456789abcdef:0123456789abcdef0123456789abcdef".data)).1 = [] ∧
    lookupDomain (listCredentialsOf
      ("foo 0123456789abcdef0123456789abcdef:0123456789abcdef0123456789abcdef".data)).1
      ("foo.jumpseller.com".data) = none := by
  refine ⟨?_, by decide, by decide, by decide⟩
  intro content e hme
  rw [listCredentialsOf_eq_credFold] at hme
  exact credFold_entries_valid (sigLines content) ([], []) (by simp) e hme

/-- C10, witness: the invariant applied to a concrete accepted entry. -/
theorem c10_witness :
    parseStoreReference ("a.jumpseller.com".data) = (true, "a.jumpseller.com".data) ∧
    validCredentials
      ("0123456789abcdef0123456789abcdef:0123456789abcdef0123456789abcdef".data) = true :=
  c10_canonical_invariant.1
    ("a.jumpseller.com 0123456789abcdef0123456789abcdef:0123456789abcdef0123456789abcdef".data)
    (("a.jumpseller.com".data),
     ("0123456789abcdef0123456789abcdef:0123456789abcdef0123456789abcdef".data))
    (by decide)
